import Mathlib

/-!
# ghcierr: the log-triage engine of `main.go`

A shallow embedding of `parseGoLogs` (main.go, lines 146-263) and of the
constants and tables it reads (lines 26-42 and 128-138).

Conventions of the embedding.

* A Go `[]byte` or `string` is a list of byte values (`Bytes`); all lengths and
  offsets are byte lengths and byte offsets, as in the source.
* `parseGoLogs` reads its input through `bufio.Scanner`; the embedding takes the
  sequence of tokens (lines without their terminator) that `scanner.Scan()`
  yields.
* `*stream` pointers are addresses into an explicit heap of stream objects;
  the Go map `scanContents` maps a test name to such an address and is only
  ever looked up, inserted into and deleted from (never iterated), so it is a
  finite partial function.
* A run-time panic (the slice expression of line 212 on a line shorter than
  `len(PrefixName)`) is the result `none`.
* The escape sequences written by `(*color.Color).SetWriter` of the external
  colour library are parameters (`Palette`): the library writes nothing at all
  when colour output is disabled.
-/

namespace Ghcierr

/-- A byte string: the value of a Go `[]byte` or `string`. -/
abbrev Bytes := List Nat

/-- The bytes of an ASCII string literal of the source. -/
def ascii (s : String) : Bytes := s.toList.map Char.toNat

/-! ## Library functions used by `parseGoLogs` -/

/-- Go `bytes.HasPrefix(s, p)`. -/
def HasPrefix : Bytes → Bytes → Bool
  | _, [] => true
  | [], _ :: _ => false
  | a :: s, b :: p => a == b && HasPrefix s p

/-- Go `strings.HasSuffix(s, p)`. -/
def HasSuffix (s p : Bytes) : Bool := HasPrefix s.reverse p.reverse

/-- Go `bytes.Contains(s, sub)`: `sub` occurs in `s` as a contiguous run. -/
def Contains : Bytes → Bytes → Bool
  | [], sub => HasPrefix [] sub
  | a :: s, sub => HasPrefix (a :: s) sub || Contains s sub

/-- Go `bytes.TrimPrefix(s, p)`. -/
def TrimPrefix (s p : Bytes) : Bytes := if HasPrefix s p then s.drop p.length else s

/-- Go `strings.Split(s, " ")`: the pieces of `s` between single spaces;
there is always at least one piece. -/
def Split : Bytes → List Bytes
  | [] => [[]]
  | c :: s =>
    if c = 32 then [] :: Split s
    else match Split s with
      | [] => [[c]]
      | h :: t => (c :: h) :: t

/-- Lower-casing of one byte: `A`..`Z` to `a`..`z`, every other byte unchanged. -/
def lowerByte (c : Nat) : Nat := if 65 ≤ c ∧ c ≤ 90 then c + 32 else c

/-- Go `strings.ToLower` as far as `parseGoLogs` observes it. The source only
tests the lowered line for containment of the phrases `error` and
`error trace:`. Outside ASCII `strings.ToLower` yields bytes of value 128 and
above, except for U+0130 and U+212A which lower to `i` and `k`; neither letter
occurs in a phrase, so containment of a phrase in the lowered line is decided
by the ASCII bytes alone, lowered byte by byte. -/
def ToLower (s : Bytes) : Bytes := s.map lowerByte

/-- The UTF-8 encodings of the runes for which Go `unicode.IsSpace` holds:
tab, LF, VT, FF, CR, space, U+0085, U+00A0, U+1680, U+2000..U+200A, U+2028,
U+2029, U+202F, U+205F, U+3000. -/
def spaceRunes : List Bytes :=
  [[9], [10], [11], [12], [13], [32], [0xC2, 0x85], [0xC2, 0xA0], [0xE1, 0x9A, 0x80],
   [0xE2, 0x80, 0x80], [0xE2, 0x80, 0x81], [0xE2, 0x80, 0x82], [0xE2, 0x80, 0x83],
   [0xE2, 0x80, 0x84], [0xE2, 0x80, 0x85], [0xE2, 0x80, 0x86], [0xE2, 0x80, 0x87],
   [0xE2, 0x80, 0x88], [0xE2, 0x80, 0x89], [0xE2, 0x80, 0x8A], [0xE2, 0x80, 0xA8],
   [0xE2, 0x80, 0xA9], [0xE2, 0x80, 0xAF], [0xE2, 0x81, 0x9F], [0xE3, 0x80, 0x80]]

/-- Whether the line is a concatenation of white-space runes, reading at most
`fuel` runes. -/
def allSpace : Nat → Bytes → Bool
  | _, [] => true
  | 0, _ :: _ => false
  | fuel + 1, c :: s =>
    match spaceRunes.find? (fun r => HasPrefix (c :: s) r) with
    | some r => allSpace fuel ((c :: s).drop r.length)
    | none => false

/-- The test `len(bytes.TrimSpace(line)) == 0` of line 163. `bytes.TrimSpace`
removes leading and trailing white-space runes; what it returns is empty
exactly when the whole line decodes to white-space runes. -/
def trimSpaceEmpty (line : Bytes) : Bool := allSpace line.length line

/-! ## Constants and tables of the source -/

/-- Source constant `PrefixName` (line 129). -/
def PrefixName : Bytes := ascii "=== NAME  "
/-- Source constant `PrefixRun` (line 130). -/
def PrefixRun : Bytes := ascii "=== RUN   "
/-- Source constant `PrefixPause` (line 131). -/
def PrefixPause : Bytes := ascii "=== PAUSE "
/-- Source constant `PrefixCont` (line 132). -/
def PrefixCont : Bytes := ascii "=== CONT  "
/-- Source constant `PrefixFail` (line 133). -/
def PrefixFail : Bytes := ascii "--- FAIL: "
/-- Source constant `PrefixPass` (line 134). -/
def PrefixPass : Bytes := ascii "--- PASS: "
/-- Source constant `PrefixResult` (line 135). -/
def PrefixResult : Bytes := ascii "--- "
/-- Source constant `PrefixSubResult` (line 136). -/
def PrefixSubResult : Bytes := ascii "    --- "
/-- Source constant `PrefixStage` (line 137). -/
def PrefixStage : Bytes := ascii "=== "

/-- Source table `muteLines` (lines 27-33). -/
def muteLines : List Bytes :=
  [ascii " level=info ", ascii "--:--:--", ascii "Average Speed   Time",
   ascii "Dload  Upload", ascii "GET / HTTP/1.1"]

/-- Source table `mutePairs` (lines 34-36): start token and end token. -/
def mutePairs : List (Bytes × Bytes) := [(ascii "<!DOCTYPE html>", ascii "</html>")]

/-- The byte sequences the colour library writes: `bgRedFgWhite` and
`bgBlueFgWhite` by `SetWriter` of the two highlight colours, `reset` by
`SetWriter` of the `reset` colour (line 41). -/
structure Palette where
  bgRedFgWhite : Bytes
  bgBlueFgWhite : Bytes
  reset : Bytes

/-- The palette of a terminal with colour enabled: `ESC[41;37m`, `ESC[44;37m`
and `ESC[0m`. -/
def ansi : Palette :=
  { bgRedFgWhite := 27 :: ascii "[41;37m"
    bgBlueFgWhite := 27 :: ascii "[44;37m"
    reset := 27 :: ascii "[0m" }

/-- The palette when colour output is disabled: nothing is written. -/
def noColor : Palette := { bgRedFgWhite := [], bgBlueFgWhite := [], reset := [] }

/-- Source type `highlight` (lines 21-24); `color` is what `SetWriter` writes. -/
structure highlight where
  phrase : Bytes
  color : Bytes

/-- Source table `highlightKeywords` (lines 37-40). -/
def highlightKeywords (P : Palette) : List highlight :=
  [{ phrase := ascii "error", color := P.bgRedFgWhite },
   { phrase := ascii "error trace:", color := P.bgBlueFgWhite }]

/-! ## Data model -/

/-- Source type `stream` (lines 140-144): a byte buffer with its mute state. -/
structure stream where
  Buffer : Bytes
  muted : Bool
  unmuteWith : Bytes

/-- The local variables of `parseGoLogs` together with the stream objects they
point to. `heap p` is the stream object at address `p`; addresses below `next`
have been allocated. -/
structure State where
  heap : Nat → stream
  next : Nat
  scanContents : Bytes → Option Nat
  contentArr : List Bytes
  curStream : Option Nat

/-- The state at the head of the loop (lines 147-152). -/
def State.init : State :=
  { heap := fun _ => { Buffer := [], muted := false, unmuteWith := [] }
    next := 0
    scanContents := fun _ => none
    contentArr := []
    curStream := none }

/-- Replace the stream object at address `p`. -/
def State.setStream (st : State) (p : Nat) (s : stream) : State :=
  { st with heap := fun q => if q = p then s else st.heap q }

/-- Append bytes to the buffer of the stream at address `p`
(`Write`, `WriteRune` and the writes of `SetWriter`). -/
def State.write (st : State) (p : Nat) (bs : Bytes) : State :=
  st.setStream p { st.heap p with Buffer := (st.heap p).Buffer ++ bs }

/-! ## The loop body -/

/-- The condition of line 156: `len(line) > 29 && line[28] == ' '`. -/
def timestampShaped (ln : Bytes) : Bool :=
  decide (ln.length > 29) && (ln.get? 28 == some 32)

/-- Lines 156-159: strip a 29-byte timestamp. -/
def stripTimestamp (ln : Bytes) : Bytes :=
  if timestampShaped ln then ln.drop 29 else ln

/-- Line 161: the line starts with none of the three marker prefixes. -/
def isPlain (line : Bytes) : Bool :=
  !HasPrefix line PrefixStage && !HasPrefix line PrefixResult && !HasPrefix line PrefixSubResult

/-- Lines 188-191: abbreviation of a long line. -/
def abbrev400 (line : Bytes) : Bytes :=
  if line.length > 400 then line.take 200 ++ ascii "..." else line

/-- Lines 193-199: the bytes written by the highlight loop, one colour sequence
for every rule whose phrase the lowered line contains, in table order. -/
def colorStart (P : Palette) (line : Bytes) : Bytes :=
  (((highlightKeywords P).filter (fun h => Contains (ToLower line) h.phrase)).map
    (fun h => h.color)).flatten

/-- Lines 193-199: the flag `colored`. -/
def colored (P : Palette) (line : Bytes) : Bool :=
  (highlightKeywords P).any (fun h => Contains (ToLower line) h.phrase)

/-- Lines 188-207: everything a passing line appends to the current stream. -/
def emitted (P : Palette) (line : Bytes) : Bytes :=
  colorStart P (abbrev400 line) ++ abbrev400 line ++
    (if colored P (abbrev400 line) then P.reset else []) ++ [10]

/-- Lines 163-207: a plain line while `curStream` is the stream at `p`. -/
def onContent (P : Palette) (st : State) (p : Nat) (line : Bytes) : State :=
  if trimSpaceEmpty line then st
  else if (st.heap p).muted then
    if Contains line (st.heap p).unmuteWith then
      st.setStream p { st.heap p with muted := false }
    else st
  else if muteLines.any (fun m => Contains line m) then st
  else
    match mutePairs.find? (fun m => Contains line m.1) with
    | some m => st.setStream p { st.heap p with muted := true, unmuteWith := m.2 }
    | none => st.write p (emitted P line)

/-- Lines 213-221: the stream of `name0` becomes the current one; it is created,
and `name0` appended to `contentArr`, when `name0` is not a key of
`scanContents`. -/
def openStream (st : State) (name0 : Bytes) : State :=
  match st.scanContents name0 with
  | some p => { st with curStream := some p }
  | none =>
    { heap := fun q =>
        if q = st.next then { Buffer := [], muted := false, unmuteWith := [] }
        else st.heap q
      next := st.next + 1
      scanContents := fun k => if k = name0 then some st.next else st.scanContents k
      contentArr := st.contentArr ++ [name0]
      curStream := some st.next }

/-- Lines 211-223: a line with the stage prefix; `none` is the panic of the
slice expression `string(line)[len(PrefixName):]`. -/
def onStage (st : State) (line : Bytes) : Option State :=
  if line.length < PrefixName.length then none
  else
    let name := Split (line.drop PrefixName.length)
    some (openStream st (name.headD []))

/-- Lines 224-227: a sub-result line loses its four leading spaces. -/
def trimSub (line0 : Bytes) : Bytes :=
  if HasPrefix line0 PrefixSubResult then TrimPrefix line0 (ascii "    ") else line0

/-- Lines 224-253: a line with the result or the sub-result prefix. -/
def onResult (st : State) (line0 : Bytes) : State :=
  let line := trimSub line0
  if HasPrefix line PrefixResult then
    let tr := Split line
    if tr.length < 3 then st
    else if !HasSuffix (tr.getD 1 []) (ascii ":") then st
    else
      match st.scanContents (tr.getD 2 []) with
      | none => st
      | some p =>
        if !HasPrefix line PrefixFail then
          { st with curStream := none
                    scanContents := fun k => if k = tr.getD 2 [] then none else st.scanContents k }
        else
          State.write { st with curStream := none } p (line ++ [10])
  else st

/-- One iteration of the loop of lines 154-254 on the scanned line `raw`. -/
def processLine (P : Palette) (st : State) (raw : Bytes) : Option State :=
  let line := stripTimestamp raw
  if isPlain line then
    match st.curStream with
    | some p => some (onContent P st p line)
    | none => some st
  else if HasPrefix line PrefixStage then onStage st line
  else some (onResult st line)

/-- The loop of lines 154-254 over the scanned lines. -/
def run (P : Palette) : State → List Bytes → Option State
  | st, [] => some st
  | st, l :: ls =>
    match processLine P st l with
    | some st1 => run P st1 ls
    | none => none

/-- Lines 256-262: the blocks of the report, test name and buffer content, for
the names of `contentArr` that are still keys of `scanContents`. -/
def report (st : State) : List (Bytes × Bytes) :=
  st.contentArr.filterMap
    (fun n => (st.scanContents n).map (fun p => (n, (st.heap p).Buffer)))

/-- Line 261: the bytes `fmt.Printf` prints for one block. -/
def printBlock (b : Bytes × Bytes) : Bytes :=
  [0xE2, 0x9A, 0xA0, 0xEF, 0xB8, 0x8F] ++ ascii "  Test " ++ b.1 ++ [10] ++ b.2 ++ [10, 10, 10]

/-- Source function `parseGoLogs`: the blocks it prints, `none` when it panics
before printing. -/
def parseGoLogs (P : Palette) (lines : List Bytes) : Option (List (Bytes × Bytes)) :=
  (run P State.init lines).map report

/-- The bytes `parseGoLogs` prints. -/
def printed (P : Palette) (lines : List Bytes) : Option Bytes :=
  (parseGoLogs P lines).map (fun bs => (bs.map printBlock).flatten)

/-! ## Vocabulary of the claims, read off the classifier of the source -/

/-- The test name announced by a line that the loop treats as a stage marker
without panicking: after the timestamp strip the line starts with `PrefixStage`
and is at least `len(PrefixName)` long; the name is the first piece of the rest
(lines 211-212). -/
def stageName (raw : Bytes) : Option Bytes :=
  if HasPrefix (stripTimestamp raw) PrefixStage
      && decide (PrefixName.length ≤ (stripTimestamp raw).length) then
    some ((Split ((stripTimestamp raw).drop PrefixName.length)).headD [])
  else none

/-- The test name of a well-formed result marker (lines 225-235): after the
timestamp strip and the sub-result trim the line starts with `PrefixResult`,
splits into at least three pieces, the second ends in a colon, the third is the
name. -/
def resultName (raw : Bytes) : Option Bytes :=
  if !isPlain (stripTimestamp raw) && !HasPrefix (stripTimestamp raw) PrefixStage
      && HasPrefix (trimSub (stripTimestamp raw)) PrefixResult
      && decide (3 ≤ (Split (trimSub (stripTimestamp raw))).length)
      && HasSuffix ((Split (trimSub (stripTimestamp raw))).getD 1 []) (ascii ":") then
    some ((Split (trimSub (stripTimestamp raw))).getD 2 [])
  else none

/-- The test of line 245 on a result line: it starts with `PrefixFail`. -/
def isFailure (raw : Bytes) : Bool := HasPrefix (trimSub (stripTimestamp raw)) PrefixFail

/-- A benign plain content line: not blank, at most 400 bytes, not
timestamp-shaped, without marker prefix, without mute phrase, without
mute-pair start token and without highlight keyword. -/
def benign (P : Palette) (c : Bytes) : Bool :=
  !trimSpaceEmpty c && decide (c.length ≤ 400) && !timestampShaped c && isPlain c
    && !muteLines.any (fun m => Contains c m) && !mutePairs.any (fun m => Contains c m.1)
    && !colored P c

/-- The names of the stage markers of the input, in input order. -/
def stageNames (lines : List Bytes) : List Bytes := lines.filterMap stageName

/-- The distinct elements of a list in the order of their first occurrence. -/
def firstSeen : List Bytes → List Bytes → List Bytes
  | _, [] => []
  | seen, n :: ns => if n ∈ seen then firstSeen seen ns else n :: firstSeen (n :: seen) ns

/-- The names of the blocks of a report. -/
def names (blocks : List (Bytes × Bytes)) : List Bytes := blocks.map Prod.fst

/-- The keys of `scanContents` at the end of the input, as a test on a name. -/
def retained (P : Palette) (lines : List Bytes) (n : Bytes) : Bool :=
  match run P State.init lines with
  | some st => (st.scanContents n).isSome
  | none => false

/-- The bytes demultiplexed to test `n`: every line that is not a stage marker,
followed by a newline, when the nearest stage marker before it names `n`;
`cur` is the name of the nearest stage marker before the first line. -/
def demux (n : Bytes) : Option Bytes → List Bytes → Bytes
  | _, [] => []
  | cur, l :: ls =>
    match stageName l with
    | some m => demux n (some m) ls
    | none => (if cur = some n then l ++ [10] else []) ++ demux n cur ls

/-- The buffer stored for test `n`, when `n` is a key of `scanContents`. -/
def bufOf (st : State) (n : Bytes) : Option Bytes :=
  (st.scanContents n).map (fun q => (st.heap q).Buffer)

/-- States reached over stage markers and benign lines only: distinct names
have distinct allocated streams, no stream is muted, and the current stream is
the stream of the name `cur` of the last stage marker. -/
structure Demuxed (st : State) (cur : Option Bytes) : Prop where
  inj : ∀ a b q, st.scanContents a = some q → st.scanContents b = some q → a = b
  bound : ∀ a q, st.scanContents a = some q → q < st.next
  unmuted : ∀ a q, st.scanContents a = some q → (st.heap q).muted = false
  cur_none : cur = none → st.curStream = none
  cur_some : ∀ m, cur = some m → ∃ q, st.scanContents m = some q ∧ st.curStream = some q

/-- A plain line reaches the write of lines 188-207 on the stream at `p`: it is
not blank, the stream is not muted, and the line holds neither a mute phrase
nor a mute-pair start token. -/
def passes (st : State) (p : Nat) (line : Bytes) : Bool :=
  !trimSpaceEmpty line && !(st.heap p).muted && !muteLines.any (fun m => Contains line m)
    && !mutePairs.any (fun m => Contains line m.1)

/-- The order list `contentArr` at the end of the input. -/
def finalOrder (P : Palette) (lines : List Bytes) : Option (List Bytes) :=
  (run P State.init lines).map (fun st => st.contentArr)

/-- The part of `r` before its first space. -/
def firstToken (r : Bytes) : Bytes := r.takeWhile (fun c => c != 32)

/-- The states the loop can reach: distinct names have distinct streams, every
stream of the map has been allocated, and every key of the map is in the
order list. -/
structure WellFormed (st : State) : Prop where
  inj : ∀ a b q, st.scanContents a = some q → st.scanContents b = some q → a = b
  bound : ∀ a q, st.scanContents a = some q → q < st.next
  listed : ∀ a q, st.scanContents a = some q → a ∈ st.contentArr

/-- No line of the input makes the slice expression of line 212 panic: every
line that starts with the stage prefix after the timestamp strip is at least
`len(PrefixName)` long. -/
def noShortStage (lines : List Bytes) : Bool :=
  lines.all (fun x => !HasPrefix (stripTimestamp x) PrefixStage
    || decide (PrefixName.length ≤ (stripTimestamp x).length))

/-! ## Basic facts -/

theorem run_append (P : Palette) (a b : List Bytes) (st : State) :
    run P st (a ++ b) = (run P st a).bind (fun s => run P s b) := by
  induction a generalizing st with
  | nil => rfl
  | cons x xs ih =>
    simp only [List.cons_append, run]
    cases processLine P st x with
    | none => rfl
    | some s1 => exact ih s1

theorem run_two {P : Palette} {s s1 s2 : State} {a b : Bytes}
    (ha : processLine P s a = some s1) (hb : processLine P s1 b = some s2) :
    run P s [a, b] = some s2 := by
  simp only [run, ha, hb]

theorem onContent_scanContents (P : Palette) (st : State) (p : Nat) (line : Bytes) :
    (onContent P st p line).scanContents = st.scanContents := by
  unfold onContent
  repeat (first | rfl | split)

theorem isPlain_of_stage {line : Bytes} (h : HasPrefix line PrefixStage = true) :
    isPlain line = false := by
  simp [isPlain, h]

/-- A stage marker puts its name among the keys of `scanContents`. -/
theorem processLine_stage_key {P : Palette} {st st1 : State} {raw n : Bytes}
    (h : processLine P st raw = some st1) (hs : stageName raw = some n) :
    (st1.scanContents n).isSome = true := by
  unfold stageName at hs
  split at hs
  · rename_i hc
    simp only [Bool.and_eq_true, decide_eq_true_eq] at hc
    obtain ⟨hp, hlen⟩ := hc
    simp only [Option.some.injEq] at hs
    simp only [processLine, isPlain_of_stage hp, hp, if_true, onStage, not_lt.mpr hlen,
      if_false, Bool.false_eq_true, openStream] at h
    rw [hs] at h
    split at h
    · rename_i q hq
      simp only [Option.some.injEq] at h
      subst h
      simp [hq]
    · simp only [Option.some.injEq] at h
      subst h
      simp
  · exact absurd hs (by simp)

/-- A well-formed result marker without the failure prefix removes its name
from the keys of `scanContents`. -/
theorem processLine_pass_key {P : Palette} {st st1 : State} {raw n : Bytes}
    (h : processLine P st raw = some st1) (hr : resultName raw = some n)
    (hf : isFailure raw = false) : st1.scanContents n = none := by
  unfold resultName at hr
  split at hr
  · rename_i hc
    simp only [Bool.and_eq_true, Bool.not_eq_true', decide_eq_true_eq] at hc
    obtain ⟨⟨⟨⟨hpl, hst⟩, hres⟩, hlen⟩, hsuf⟩ := hc
    simp only [Option.some.injEq] at hr
    unfold isFailure at hf
    simp only [processLine, hpl, hst, if_false, Bool.false_eq_true, onResult, hres, if_true,
      not_lt.mpr hlen, hsuf, Bool.not_true, hr, hf, Bool.not_false, Option.some.injEq] at h
    split at h
    · rename_i hq
      subst h
      exact hq
    · subst h
      simp
  · exact absurd hr (by simp)

/-- A line that is neither a stage marker for `n` nor a well-formed non-failure
result marker for `n` leaves the entry of `n` in `scanContents` as it was. -/
theorem processLine_other_key {P : Palette} {st st1 : State} {raw n : Bytes}
    (h : processLine P st raw = some st1) (hs : stageName raw ≠ some n)
    (hr : resultName raw = some n → isFailure raw = true) :
    st1.scanContents n = st.scanContents n := by
  unfold processLine at h
  simp only at h
  split at h
  · split at h
    · simp only [Option.some.injEq] at h
      subst h
      rw [onContent_scanContents]
    · simp only [Option.some.injEq] at h
      subst h
      rfl
  · rename_i hpl
    split at h
    · rename_i hst
      unfold onStage at h
      split at h
      · exact absurd h (by simp)
      · rename_i hlen
        have hname : stageName raw =
            some ((Split ((stripTimestamp raw).drop PrefixName.length)).headD []) := by
          simp [stageName, hst, not_lt.mp hlen]
        simp only [openStream] at h
        split at h
        · simp only [Option.some.injEq] at h
          subst h
          rfl
        · simp only [Option.some.injEq] at h
          subst h
          have hne : n ≠ (Split ((stripTimestamp raw).drop PrefixName.length)).headD [] := by
            intro e
            exact hs (by rw [hname, e])
          exact if_neg hne
    · rename_i hst
      simp only [Option.some.injEq] at h
      subst h
      unfold onResult
      simp only
      split
      · rename_i hres
        split
        · rfl
        · rename_i hlen
          split
          · rfl
          · rename_i hsuf
            have hname : resultName raw = some ((Split (trimSub (stripTimestamp raw))).getD 2 []) := by
              simp only [Bool.not_eq_true] at hpl hst
              simp only [Bool.not_eq_true, Bool.not_eq_false'] at hsuf
              unfold resultName
              rw [if_pos]
              rw [hpl, hst, hres, hsuf]
              simpa using not_lt.mp hlen
            split
            · rfl
            · split
              · rename_i hfail
                by_cases e : n = (Split (trimSub (stripTimestamp raw))).getD 2 []
                · have := hr (by rw [hname, e])
                  unfold isFailure at this
                  simp [this] at hfail
                · exact if_neg e
              · rfl
      · rfl

theorem mem_names_report {st : State} {n : Bytes} (h : n ∈ names (report st)) :
    (st.scanContents n).isSome = true := by
  simp only [names, report, List.mem_map, List.mem_filterMap] at h
  obtain ⟨b, ⟨a, _, ha⟩, hb⟩ := h
  cases hq : st.scanContents a with
  | none => simp [hq] at ha
  | some q =>
    simp only [hq, Option.map_some', Option.some.injEq] at ha
    subst ha
    simp only at hb
    subst hb
    simp [hq]

/-- Once `n` is not a key and no later line is a stage marker for `n`, it is
not a key at the end. -/
theorem run_key_absent {P : Palette} {n : Bytes} :
    ∀ (ls : List Bytes) (st st1 : State), run P st ls = some st1 →
      st.scanContents n = none → (∀ x ∈ ls, stageName x ≠ some n) →
      st1.scanContents n = none := by
  intro ls
  induction ls with
  | nil =>
    intro st st1 h h0 _
    simp only [run, Option.some.injEq] at h
    subst h
    exact h0
  | cons x xs ih =>
    intro st st1 h h0 hx
    simp only [run] at h
    cases hp : processLine P st x with
    | none => simp [hp] at h
    | some s1 =>
      simp only [hp] at h
      have hsx : stageName x ≠ some n := hx x (List.mem_cons_self _ _)
      have h1 : s1.scanContents n = none := by
        by_cases hr : resultName x = some n ∧ isFailure x = false
        · exact processLine_pass_key hp hr.1 hr.2
        · rw [processLine_other_key hp hsx]
          · exact h0
          · intro e
            cases hf : isFailure x with
            | true => rfl
            | false => exact absurd ⟨e, hf⟩ hr
      exact ih s1 st1 h h1 (fun y hy => hx y (List.mem_cons_of_mem _ hy))

/-- A key of `scanContents` at the end was either a key at the start and never
passed, or was announced by a stage marker and not passed afterwards. -/
theorem run_key_origin {P : Palette} {n : Bytes} :
    ∀ (ls : List Bytes) (st st1 : State), run P st ls = some st1 →
      (st1.scanContents n).isSome = true →
      ((st.scanContents n).isSome = true ∧
          ∀ x ∈ ls, resultName x = some n → isFailure x = true) ∨
        ∃ pre l post, ls = pre ++ l :: post ∧ stageName l = some n ∧
          ∀ x ∈ post, resultName x = some n → isFailure x = true := by
  intro ls
  induction ls with
  | nil =>
    intro st st1 h h1
    simp only [run, Option.some.injEq] at h
    subst h
    exact Or.inl ⟨h1, fun x hx => absurd hx (List.not_mem_nil x)⟩
  | cons x xs ih =>
    intro st st1 h h1
    simp only [run] at h
    cases hp : processLine P st x with
    | none => simp [hp] at h
    | some s1 =>
      simp only [hp] at h
      rcases ih s1 st1 h h1 with ⟨hk, hall⟩ | ⟨pre, l, post, he, hs, hall⟩
      · by_cases hsx : stageName x = some n
        · exact Or.inr ⟨[], x, xs, rfl, hsx, hall⟩
        · by_cases hr : resultName x = some n ∧ isFailure x = false
          · rw [processLine_pass_key hp hr.1 hr.2] at hk
            exact absurd hk (by simp)
          · have hr1 : resultName x = some n → isFailure x = true := by
              intro e
              cases hf : isFailure x with
              | true => rfl
              | false => exact absurd ⟨e, hf⟩ hr
            left
            refine ⟨?_, ?_⟩
            · rw [← processLine_other_key hp hsx hr1]
              exact hk
            · intro y hy
              rcases List.mem_cons.mp hy with e | hy1
              · rw [e]
                exact hr1
              · exact hall y hy1
      · exact Or.inr ⟨x :: pre, l, post, by rw [he]; rfl, hs, hall⟩

theorem parseGoLogs_some {P : Palette} {lines : List Bytes} {blocks : List (Bytes × Bytes)}
    (h : parseGoLogs P lines = some blocks) :
    ∃ st, run P State.init lines = some st ∧ report st = blocks := by
  unfold parseGoLogs at h
  cases hr : run P State.init lines with
  | none => simp [hr] at h
  | some st =>
    simp only [hr, Option.map_some', Option.some.injEq] at h
    exact ⟨st, rfl, h⟩

/-! ## The claims -/

/-- C1, counterexample: on the input `=== NAME  t1`, `hello` the report holds a
block for `t1`, although no line of the input is a result marker: an
unresolved test does appear in the report. -/
theorem C1_unresolved_test_is_reported :
    parseGoLogs ansi [ascii "=== NAME  t1", ascii "hello"]
        = some [(ascii "t1", ascii "hello\n")] ∧
      ∀ x ∈ [ascii "=== NAME  t1", ascii "hello"], resultName x = none := by
  decide

/-- C1, amended: every test name in the report has a stage marker after which
no well-formed result marker naming it lacks the failure prefix; so a test
whose last marker is a pass is never reported, while a test without any result
marker is. -/
theorem C1_reported_names_not_passed (P : Palette) (lines : List Bytes)
    (blocks : List (Bytes × Bytes)) (n : Bytes)
    (hrun : parseGoLogs P lines = some blocks) (hn : n ∈ names blocks) :
    ∃ pre l post, lines = pre ++ l :: post ∧ stageName l = some n ∧
      ∀ x ∈ post, resultName x = some n → isFailure x = true := by
  obtain ⟨st, hst, hrep⟩ := parseGoLogs_some hrun
  rw [← hrep] at hn
  rcases run_key_origin lines State.init st hst (mem_names_report hn) with ⟨hk, _⟩ | h
  · exact absurd hk (by simp [State.init])
  · exact h

/-- Witness for C1 on the input `=== NAME  t1`, `hello`, `--- FAIL: t1`. -/
theorem C1_reported_names_not_passed_witness :
    ∃ pre l post, [ascii "=== NAME  t1", ascii "hello", ascii "--- FAIL: t1"] = pre ++ l :: post ∧
      stageName l = some (ascii "t1") ∧
      ∀ x ∈ post, resultName x = some (ascii "t1") → isFailure x = true :=
  C1_reported_names_not_passed ansi [ascii "=== NAME  t1", ascii "hello", ascii "--- FAIL: t1"]
    [(ascii "t1", ascii "hello\n--- FAIL: t1\n")] (ascii "t1") (by rfl) (by decide)

/-- C2, the code at the failing input: a test that is run twice, passing and
then failing, is printed twice, while the names in first-stage order restricted
to the retained ones are the single name. -/
theorem C2_restaged_test_reported_twice :
    (parseGoLogs ansi [ascii "=== RUN   TestA", ascii "--- PASS: TestA (0.00s)",
        ascii "=== RUN   TestA", ascii "--- FAIL: TestA (0.01s)"]).map names
        = some [ascii "TestA", ascii "TestA"] ∧
      (firstSeen [] (stageNames [ascii "=== RUN   TestA", ascii "--- PASS: TestA (0.00s)",
        ascii "=== RUN   TestA", ascii "--- FAIL: TestA (0.01s)"])).filter
          (retained ansi [ascii "=== RUN   TestA", ascii "--- PASS: TestA (0.00s)",
            ascii "=== RUN   TestA", ascii "--- FAIL: TestA (0.01s)"])
        = [ascii "TestA"] := by
  decide

/-! ## Stage, content and result lines in closed form -/

theorem HasPrefix_nil (s : Bytes) : HasPrefix s [] = true := by
  cases s <;> rfl

theorem HasPrefix_append_self (p s : Bytes) : HasPrefix (p ++ s) p = true := by
  induction p with
  | nil => exact HasPrefix_nil _
  | cons a p ih => simp [HasPrefix, ih]

theorem HasPrefix_append_of {s q : Bytes} (t : Bytes) (h : HasPrefix s q = true) :
    HasPrefix (s ++ t) q = true := by
  induction q generalizing s with
  | nil => exact HasPrefix_nil _
  | cons b q ih =>
    cases s with
    | nil => simp [HasPrefix] at h
    | cons a s =>
      simp only [HasPrefix, Bool.and_eq_true] at h
      simp only [List.cons_append, HasPrefix, Bool.and_eq_true]
      exact ⟨h.1, ih h.2⟩

theorem Split_nospace (n : Bytes) (h : 32 ∉ n) : Split n = [n] := by
  induction n with
  | nil => rfl
  | cons c n ih =>
    have hc : c ≠ 32 := fun e => h (by simp [e])
    have hn : 32 ∉ n := fun e => h (List.mem_cons_of_mem _ e)
    simp only [Split, hc, if_false, ih hn]

theorem timestampShaped_append (p n : Bytes) (hp : p.length = 10) (hn : 32 ∉ n) :
    timestampShaped (p ++ n) = false := by
  unfold timestampShaped
  have h28 : (p ++ n).get? 28 ≠ some 32 := by
    intro e
    rw [List.get?_eq_getElem?, List.getElem?_append_right (by omega)] at e
    exact hn (List.getElem?_mem e)
  cases hg : (p ++ n).get? 28 with
  | none => simp
  | some b =>
    have : b ≠ 32 := fun e => h28 (by rw [hg, e])
    simp [this]

theorem stripTimestamp_append (p n : Bytes) (hp : p.length = 10) (hn : 32 ∉ n) :
    stripTimestamp (p ++ n) = p ++ n := by
  simp [stripTimestamp, timestampShaped_append p n hp hn]

/-- A stage marker made of a ten-byte prefix and a name without spaces opens
the stream of that name. -/
theorem processLine_stage (P : Palette) (st : State) (p n : Bytes) (hp : p.length = 10)
    (hps : HasPrefix p PrefixStage = true) (hn : 32 ∉ n) :
    processLine P st (p ++ n) = some (openStream st n) := by
  have h1 : HasPrefix (p ++ n) PrefixStage = true := HasPrefix_append_of n hps
  have hlen : ¬ (p ++ n).length < PrefixName.length := by
    have : PrefixName.length = 10 := by decide
    simp only [List.length_append, this]
    omega
  have hd : List.drop PrefixName.length (p ++ n) = n :=
    List.drop_left' (by rw [hp]; decide)
  simp only [processLine, stripTimestamp_append p n hp hn, isPlain_of_stage h1, h1, onStage,
    hlen, if_false, if_true, Bool.false_eq_true, hd, Split_nospace n hn, List.headD_cons]

theorem colorStart_of_not_colored {P : Palette} {c : Bytes} (h : colored P c = false) :
    colorStart P c = [] := by
  unfold colored at h
  unfold colorStart
  rw [List.any_eq_false] at h
  have : (highlightKeywords P).filter (fun h => Contains (ToLower c) h.phrase) = [] := by
    rw [List.filter_eq_nil_iff]
    exact h
  rw [this]
  rfl

/-- A benign line is appended, with its terminator, to the current stream when
that stream is not muted. -/
theorem processLine_benign (P : Palette) (st : State) (c : Bytes) (p : Nat)
    (hb : benign P c = true) (hcur : st.curStream = some p) (hm : (st.heap p).muted = false) :
    processLine P st c = some (st.write p (c ++ [10])) := by
  simp only [benign, Bool.and_eq_true, Bool.not_eq_true', decide_eq_true_eq] at hb
  obtain ⟨⟨⟨⟨⟨⟨hblank, hlen⟩, hts⟩, hplain⟩, hml⟩, hmp⟩, hcol⟩ := hb
  have hstrip : stripTimestamp c = c := by simp [stripTimestamp, hts]
  have hfind : mutePairs.find? (fun m => Contains c m.1) = none := by
    rw [List.find?_eq_none]
    rw [List.any_eq_false] at hmp
    exact hmp
  have hab : abbrev400 c = c := by
    unfold abbrev400
    rw [if_neg (by omega)]
  have hem : emitted P c = c ++ [10] := by
    simp [emitted, hab, hcol, colorStart_of_not_colored hcol]
  simp only [processLine, hstrip, hplain, if_true, hcur, onContent, hblank, hm, hml, hfind,
    hem, Bool.false_eq_true, if_false]

theorem PrefixFail_eq : PrefixFail = [45, 45, 45, 32, 70, 65, 73, 76, 58, 32] := by decide

/-- An un-indented failure result marker for a name without spaces: when the
name is a key the result line is appended to its stream and the current stream
is cleared. -/
theorem processLine_fail (P : Palette) (st : State) (n : Bytes) (hn : 32 ∉ n) :
    processLine P st (PrefixFail ++ n) =
      some (match st.scanContents n with
        | none => st
        | some q => State.write { st with curStream := none } q (PrefixFail ++ n ++ [10])) := by
  have hstrip := stripTimestamp_append PrefixFail n (by decide) hn
  have hsp : Split (PrefixFail ++ n) = [[45, 45, 45], [70, 65, 73, 76, 58], n] := by
    simp [PrefixFail_eq, Split, Split_nospace n hn]
  have hpf : HasPrefix (PrefixFail ++ n) PrefixFail = true := HasPrefix_append_self _ _
  have hpr : HasPrefix (PrefixFail ++ n) PrefixResult = true :=
    HasPrefix_append_of n (by decide)
  have hps : HasPrefix (PrefixFail ++ n) PrefixStage = false := by
    simp [PrefixFail_eq, PrefixStage, ascii, HasPrefix]
  have hsub : HasPrefix (PrefixFail ++ n) PrefixSubResult = false := by
    simp [PrefixFail_eq, PrefixSubResult, ascii, HasPrefix]
  have hplain : isPlain (PrefixFail ++ n) = false := by simp [isPlain, hpr]
  have hsuf : HasSuffix [70, 65, 73, 76, 58] (ascii ":") = true := by decide
  simp only [processLine, hstrip, hplain, hps, onResult, trimSub, hsub, hpr, hsp, if_true,
    if_false, Bool.false_eq_true, List.length_cons, List.length_nil, List.getD_cons_succ,
    List.getD_cons_zero, hsuf, hpf, Bool.not_true]
  cases st.scanContents n <;> simp

/-- C3: stage marker for `n`, one benign content line `c`, failure result for
`n`: the report is the single block of `n` with body `c`, newline, the result
line, newline. -/
theorem C3_scenario_A (P : Palette) (n c : Bytes) (hn : 32 ∉ n) (hc : benign P c = true) :
    parseGoLogs P [PrefixName ++ n, c, PrefixFail ++ n]
      = some [(n, c ++ [10] ++ (PrefixFail ++ n) ++ [10])] := by
  have h1 := processLine_stage P State.init PrefixName n (by decide) (by decide) hn
  have h2 := processLine_benign P (openStream State.init n) c 0 hc (by rfl) (by rfl)
  have h3 := processLine_fail P ((openStream State.init n).write 0 (c ++ [10])) n hn
  simp only [parseGoLogs, run, h1, h2, h3]
  simp [openStream, State.init, State.write, State.setStream, report]

/-- Witness for C3 with `n = t1` and `c = hello`. -/
theorem C3_scenario_A_witness :
    parseGoLogs ansi [PrefixName ++ ascii "t1", ascii "hello", PrefixFail ++ ascii "t1"]
      = some [(ascii "t1", ascii "hello" ++ [10] ++ (PrefixFail ++ ascii "t1") ++ [10])] :=
  C3_scenario_A ansi (ascii "t1") (ascii "hello") (by decide) (by decide)

/-! ## Demultiplexing -/

theorem processLine_of_stageName {P : Palette} {st : State} {x m : Bytes}
    (h : stageName x = some m) : processLine P st x = some (openStream st m) := by
  unfold stageName at h
  split at h
  · rename_i hc
    simp only [Bool.and_eq_true, decide_eq_true_eq] at hc
    simp only [Option.some.injEq] at h
    simp only [processLine, isPlain_of_stage hc.1, hc.1, onStage, not_lt.mpr hc.2, if_true,
      if_false, Bool.false_eq_true, h]
  · exact absurd h (by simp)

theorem stageName_of_benign {P : Palette} {c : Bytes} (hb : benign P c = true) :
    stageName c = none := by
  simp only [benign, Bool.and_eq_true, Bool.not_eq_true', decide_eq_true_eq] at hb
  obtain ⟨⟨⟨⟨⟨⟨_, _⟩, hts⟩, hplain⟩, _⟩, _⟩, _⟩ := hb
  have hstrip : stripTimestamp c = c := by simp [stripTimestamp, hts]
  have hns : HasPrefix c PrefixStage = false := by
    cases h : HasPrefix c PrefixStage with
    | false => rfl
    | true => rw [isPlain_of_stage h] at hplain; exact absurd hplain (by simp)
  simp [stageName, hstrip, hns]

theorem Demuxed_init : Demuxed State.init none where
  inj := by intro a b q h; simp [State.init] at h
  bound := by intro a q h; simp [State.init] at h
  unmuted := by intro a q h; simp [State.init] at h
  cur_none := fun _ => rfl
  cur_some := by intro m h; simp at h

theorem openStream_key (st : State) (m n : Bytes) :
    ((openStream st m).scanContents n).isSome =
      (decide (n = m) || (st.scanContents n).isSome) := by
  unfold openStream
  split
  · rename_i q hq
    by_cases e : n = m
    · subst e
      simp [hq]
    · simp [e]
  · by_cases e : n = m
    · simp [e]
    · simp [e]

theorem openStream_bufOf {st : State} {cur : Option Bytes} (hd : Demuxed st cur) (m n : Bytes) :
    (bufOf (openStream st m) n).getD [] = (bufOf st n).getD [] := by
  unfold openStream bufOf
  split
  · rfl
  · rename_i hq
    by_cases e : n = m
    · subst e
      simp [hq]
    · simp only [if_neg e]
      cases hk : st.scanContents n with
      | none => rfl
      | some q =>
        have := hd.bound n q hk
        simp [Nat.ne_of_lt this]

theorem openStream_Demuxed {st : State} {cur : Option Bytes} (hd : Demuxed st cur) (m : Bytes) :
    Demuxed (openStream st m) (some m) := by
  unfold openStream
  split
  · rename_i q hq
    exact
      { inj := hd.inj
        bound := hd.bound
        unmuted := hd.unmuted
        cur_none := by intro h; simp at h
        cur_some := by
          intro k hk
          simp only [Option.some.injEq] at hk
          subst hk
          exact ⟨q, hq, rfl⟩ }
  · rename_i hq
    refine
      { inj := ?_, bound := ?_, unmuted := ?_, cur_none := by intro h; simp at h, cur_some := ?_ }
    · intro a b q ha hb
      simp only at ha hb
      by_cases ea : a = m <;> by_cases eb : b = m
      · rw [ea, eb]
      · simp only [if_pos ea, if_neg eb, Option.some.injEq] at ha hb
        have := hd.bound b q hb
        omega
      · simp only [if_neg ea, if_pos eb, Option.some.injEq] at ha hb
        have := hd.bound a q ha
        omega
      · simp only [if_neg ea, if_neg eb] at ha hb
        exact hd.inj a b q ha hb
    · intro a q ha
      simp only at ha ⊢
      by_cases ea : a = m
      · simp only [if_pos ea, Option.some.injEq] at ha
        omega
      · simp only [if_neg ea] at ha
        have := hd.bound a q ha
        omega
    · intro a q ha
      simp only at ha ⊢
      by_cases ea : a = m
      · simp only [if_pos ea, Option.some.injEq] at ha
        simp [ha]
      · simp only [if_neg ea] at ha
        have := hd.bound a q ha
        simp only [if_neg (Nat.ne_of_lt this)]
        exact hd.unmuted a q ha
    · intro k hk
      simp only [Option.some.injEq] at hk
      subst hk
      exact ⟨st.next, by simp, rfl⟩

theorem write_Demuxed {st : State} {cur : Option Bytes} (hd : Demuxed st cur) (p : Nat)
    (bs : Bytes) : Demuxed (st.write p bs) cur where
  inj := hd.inj
  bound := hd.bound
  unmuted := by
    intro a q ha
    have := hd.unmuted a q ha
    simp only [State.write, State.setStream]
    by_cases e : q = p
    · subst e
      simpa using this
    · simpa [e] using this
  cur_none := hd.cur_none
  cur_some := hd.cur_some

theorem write_bufOf {st : State} {cur : Option Bytes} (hd : Demuxed st cur) {m : Bytes} {p : Nat}
    (hm : st.scanContents m = some p) (bs : Bytes) (n : Bytes) :
    bufOf (st.write p bs) n =
      if n = m then (bufOf st n).map (fun b => b ++ bs) else bufOf st n := by
  simp only [bufOf, State.write, State.setStream]
  by_cases e : n = m
  · subst e
    simp [hm]
  · rw [if_neg e]
    cases hk : st.scanContents n with
    | none => rfl
    | some q =>
      have hne : q ≠ p := fun h => e (hd.inj n m p (by rw [hk, h]) hm)
      simp [hne]

/-- Over stage markers and benign lines the run succeeds, and the buffer of
every name is its earlier buffer followed by what `demux` assigns to it. -/
theorem run_demux (P : Palette) :
    ∀ (ls : List Bytes) (st : State) (cur : Option Bytes), Demuxed st cur →
      (∀ l ∈ ls, (stageName l).isSome = true ∨ benign P l = true) →
      ∃ st1, run P st ls = some st1 ∧ ∀ n,
        bufOf st1 n =
          if (st.scanContents n).isSome = true ∨ n ∈ stageNames ls then
            some ((bufOf st n).getD [] ++ demux n cur ls)
          else none := by
  intro ls
  induction ls with
  | nil =>
    intro st cur _ _
    refine ⟨st, rfl, fun n => ?_⟩
    cases hk : st.scanContents n with
    | none => simp [bufOf, hk, stageNames]
    | some q => simp [bufOf, hk, demux]
  | cons x xs ih =>
    intro st cur hd hall
    have hxs : ∀ l ∈ xs, (stageName l).isSome = true ∨ benign P l = true :=
      fun l hl => hall l (List.mem_cons_of_mem _ hl)
    cases hsn : stageName x with
    | some m =>
      obtain ⟨st1, hrun, hbuf⟩ := ih (openStream st m) (some m) (openStream_Demuxed hd m) hxs
      refine ⟨st1, by simp only [run, processLine_of_stageName hsn, hrun], fun n => ?_⟩
      rw [hbuf n, openStream_key, openStream_bufOf hd]
      have hmem : n ∈ stageNames (x :: xs) ↔ n = m ∨ n ∈ stageNames xs := by
        simp only [stageNames, List.filterMap_cons, hsn, List.mem_cons]
      have hdm : demux n cur (x :: xs) = demux n (some m) xs := by
        simp only [demux, hsn]
      rw [hdm]
      by_cases c1 : (st.scanContents n).isSome = true ∨ n ∈ stageNames (x :: xs)
      · rw [if_pos c1, if_pos]
        rcases c1 with c | c
        · left; simp [c]
        · rcases hmem.mp c with c | c
          · left; simp [c]
          · right; exact c
      · rw [if_neg c1, if_neg]
        intro c
        apply c1
        rcases c with c | c
        · simp only [Bool.or_eq_true, decide_eq_true_eq] at c
          rcases c with c | c
          · right; exact hmem.mpr (Or.inl c)
          · left; exact c
        · right; exact hmem.mpr (Or.inr c)
    | none =>
      have hb : benign P x = true := by
        rcases hall x (List.mem_cons_self _ _) with h | h
        · rw [hsn] at h; exact absurd h (by simp)
        · exact h
      have hmem : stageNames (x :: xs) = stageNames xs := by
        simp only [stageNames, List.filterMap_cons, hsn]
      have hdm : ∀ n, demux n cur (x :: xs)
          = (if cur = some n then x ++ [10] else []) ++ demux n cur xs := by
        intro n
        simp only [demux, hsn]
      cases hcur : cur with
      | none =>
        have hp : processLine P st x = some st := by
          have hbb := hb
          simp only [benign, Bool.and_eq_true, Bool.not_eq_true', decide_eq_true_eq] at hbb
          have hstrip : stripTimestamp x = x := by simp [stripTimestamp, hbb.1.1.1.1.2]
          simp only [processLine, hstrip, hbb.1.1.1.2, if_true, hd.cur_none hcur]
        subst hcur
        obtain ⟨st1, hrun, hbuf⟩ := ih st none hd hxs
        refine ⟨st1, by simp only [run, hp, hrun], fun n => ?_⟩
        rw [hbuf n, hmem, hdm n]
        simp
      | some m =>
        obtain ⟨q, hq, hcs⟩ := hd.cur_some m hcur
        have hp := processLine_benign P st x q hb hcs (hd.unmuted m q hq)
        subst hcur
        obtain ⟨st1, hrun, hbuf⟩ := ih (st.write q (x ++ [10])) (some m)
          (write_Demuxed hd q _) hxs
        refine ⟨st1, by simp only [run, hp, hrun], fun n => ?_⟩
        rw [hbuf n, hmem, hdm n, write_bufOf hd hq]
        have hkey : (State.write st q (x ++ [10])).scanContents n = st.scanContents n := rfl
        rw [hkey]
        by_cases e : n = m
        · subst e
          simp [bufOf, hq]
        · have e2 : ¬ (some m = some n) := fun h => e (Option.some.inj h).symm
          simp [e, e2]

/-- C4: over well-formed stage markers and benign content lines the run
succeeds and the final buffer of every announced test is the concatenation, in
input order, of the content lines (each with a newline) whose nearest
preceding stage marker names it; lines before the first stage marker go
nowhere and a name that was never announced has no stream. -/
theorem C4_demultiplexing (P : Palette) (lines : List Bytes)
    (h : ∀ l ∈ lines, (stageName l).isSome = true ∨ benign P l = true) :
    ∃ st, run P State.init lines = some st ∧ ∀ n,
      (n ∈ stageNames lines →
        ∃ q, st.scanContents n = some q ∧ (st.heap q).Buffer = demux n none lines) ∧
      (n ∉ stageNames lines → st.scanContents n = none) := by
  obtain ⟨st, hrun, hbuf⟩ := run_demux P lines State.init none Demuxed_init h
  refine ⟨st, hrun, fun n => ⟨fun hn => ?_, fun hn => ?_⟩⟩
  · have := hbuf n
    rw [if_pos (Or.inr hn)] at this
    simp only [bufOf, State.init, Option.map_none', Option.getD_none, List.nil_append] at this
    cases hk : st.scanContents n with
    | none => simp [hk] at this
    | some q =>
      simp only [hk, Option.map_some', Option.some.injEq] at this
      exact ⟨q, rfl, this⟩
  · have := hbuf n
    rw [if_neg (by simp [State.init, hn])] at this
    simp only [bufOf] at this
    cases hk : st.scanContents n with
    | none => rfl
    | some q => simp [hk] at this

/-! ## The mute engine -/

theorem HasPrefix_mem {s q : Bytes} (h : HasPrefix s q = true) : ∀ b ∈ q, b ∈ s := by
  induction q generalizing s with
  | nil => intro b hb; exact absurd hb (List.not_mem_nil b)
  | cons a q ih =>
    cases s with
    | nil => simp [HasPrefix] at h
    | cons c s =>
      simp only [HasPrefix, Bool.and_eq_true, beq_iff_eq] at h
      intro b hb
      rcases List.mem_cons.mp hb with e | hb1
      · rw [e, ← h.1]; exact List.mem_cons_self _ _
      · exact List.mem_cons_of_mem _ (ih h.2 b hb1)

theorem Contains_mem {s q : Bytes} (h : Contains s q = true) : ∀ b ∈ q, b ∈ s := by
  induction s with
  | nil =>
    simp only [Contains] at h
    exact HasPrefix_mem h
  | cons c s ih =>
    simp only [Contains, Bool.or_eq_true] at h
    rcases h with h | h
    · exact HasPrefix_mem h
    · intro b hb
      exact List.mem_cons_of_mem _ (ih h b hb)

theorem HasPrefix_eq_append {s q : Bytes} (h : HasPrefix s q = true) :
    s = q ++ s.drop q.length := by
  induction q generalizing s with
  | nil => rfl
  | cons a q ih =>
    cases s with
    | nil => simp [HasPrefix] at h
    | cons c s =>
      simp only [HasPrefix, Bool.and_eq_true, beq_iff_eq] at h
      simp only [List.length_cons, List.drop_succ_cons, List.cons_append]
      rw [← ih h.2, h.1]

/-- A line made of white-space runes holds no `<` byte. -/
theorem allSpace_no_lt : ∀ (fuel : Nat) (l : Bytes), allSpace fuel l = true → 60 ∉ l := by
  intro fuel
  induction fuel with
  | zero =>
    intro l h
    cases l with
    | nil => exact List.not_mem_nil _
    | cons c s => simp [allSpace] at h
  | succ f ih =>
    intro l h
    cases l with
    | nil => exact List.not_mem_nil _
    | cons c s =>
      simp only [allSpace] at h
      split at h
      · rename_i r hr
        have hmem : r ∈ spaceRunes := List.mem_of_find?_eq_some hr
        have hpre : HasPrefix (c :: s) r = true := by
          have := List.find?_some hr
          simpa using this
        have hall : ∀ r ∈ spaceRunes, 60 ∉ r := by decide
        have hr60 : 60 ∉ r := hall r hmem
        rw [HasPrefix_eq_append hpre]
        intro hc
        rcases List.mem_append.mp hc with hc | hc
        · exact hr60 hc
        · exact ih _ h hc
      · exact absurd h (by simp)

theorem not_blank_of_Contains {line tok : Bytes} (h : Contains line tok = true)
    (ht : 60 ∈ tok) : trimSpaceEmpty line = false := by
  cases hb : trimSpaceEmpty line with
  | false => rfl
  | true =>
    exact absurd (Contains_mem h 60 ht) (allSpace_no_lt _ _ hb)

/-- A plain line that passes the mute engine is written to the current stream. -/
theorem processLine_passes (P : Palette) (st : State) (raw : Bytes) (p : Nat)
    (hplain : isPlain (stripTimestamp raw) = true) (hcur : st.curStream = some p)
    (hpass : passes st p (stripTimestamp raw) = true) :
    processLine P st raw = some (st.write p (emitted P (stripTimestamp raw))) := by
  simp only [passes, Bool.and_eq_true, Bool.not_eq_true'] at hpass
  obtain ⟨⟨⟨hblank, hm⟩, hml⟩, hmp⟩ := hpass
  have hfind : mutePairs.find? (fun m => Contains (stripTimestamp raw) m.1) = none := by
    rw [List.find?_eq_none]
    rw [List.any_eq_false] at hmp
    exact hmp
  simp only [processLine, hplain, if_true, hcur, onContent, hblank, hm, hml, hfind,
    Bool.false_eq_true, if_false]

/-- A plain line with the start token and without mute phrase mutes the
current stream, when that stream is not muted, and writes nothing. -/
theorem processLine_start (P : Palette) (st : State) (raw : Bytes) (p : Nat)
    (hplain : isPlain (stripTimestamp raw) = true) (hcur : st.curStream = some p)
    (hm : (st.heap p).muted = false)
    (htok : Contains (stripTimestamp raw) (ascii "<!DOCTYPE html>") = true)
    (hphr : muteLines.any (fun m => Contains (stripTimestamp raw) m) = false) :
    processLine P st raw =
      some (st.setStream p { st.heap p with muted := true, unmuteWith := ascii "</html>" }) := by
  have hblank := not_blank_of_Contains htok (by decide)
  have hfind : mutePairs.find? (fun m => Contains (stripTimestamp raw) m.1)
      = some (ascii "<!DOCTYPE html>", ascii "</html>") := by
    simp [mutePairs, List.find?, htok]
  simp only [processLine, hplain, if_true, hcur, onContent, hblank, hm, hphr, hfind,
    Bool.false_eq_true, if_false]

/-- A plain line without the end token leaves a muted current stream, and the
whole state, as it is. -/
theorem processLine_inside (P : Palette) (st : State) (raw : Bytes) (p : Nat)
    (hplain : isPlain (stripTimestamp raw) = true) (hcur : st.curStream = some p)
    (hm : (st.heap p).muted = true)
    (htok : Contains (stripTimestamp raw) (st.heap p).unmuteWith = false) :
    processLine P st raw = some st := by
  simp only [processLine, hplain, if_true, hcur, onContent, hm, htok, Bool.false_eq_true,
    if_false]
  split <;> rfl

theorem run_inside (P : Palette) (p : Nat) :
    ∀ (mids : List Bytes) (st : State), st.curStream = some p → (st.heap p).muted = true →
      (∀ m ∈ mids, isPlain (stripTimestamp m) = true ∧
        Contains (stripTimestamp m) (st.heap p).unmuteWith = false) →
      run P st mids = some st := by
  intro mids
  induction mids with
  | nil => intro st _ _ _; rfl
  | cons x xs ih =>
    intro st hcur hm hall
    have hx := hall x (List.mem_cons_self _ _)
    simp only [run, processLine_inside P st x p hx.1 hcur hm hx.2]
    exact ih st hcur hm (fun m hmem => hall m (List.mem_cons_of_mem _ hmem))

/-- A plain line with the end token un-mutes a muted current stream and writes
nothing. -/
theorem processLine_end (P : Palette) (st : State) (raw : Bytes) (p : Nat)
    (hplain : isPlain (stripTimestamp raw) = true) (hcur : st.curStream = some p)
    (hm : (st.heap p).muted = true) (hu : (st.heap p).unmuteWith = ascii "</html>")
    (htok : Contains (stripTimestamp raw) (ascii "</html>") = true) :
    processLine P st raw = some (st.setStream p { st.heap p with muted := false }) := by
  have hblank := not_blank_of_Contains htok (by decide)
  simp only [processLine, hplain, if_true, hcur, onContent, hblank, hm, hu, htok,
    Bool.false_eq_true, if_false]

theorem setStream_heap (st : State) (p : Nat) (a : stream) : (st.setStream p a).heap p = a := by
  simp [State.setStream]

theorem setStream_setStream (st : State) (p : Nat) (a b : stream) :
    (st.setStream p a).setStream p b = st.setStream p b := by
  simp only [State.setStream, State.mk.injEq, and_self, and_true]
  funext q
  by_cases e : q = p <;> simp [e]

/-- A whole muted region: start line, middle lines, end line. Nothing is
written and the current stream is not muted afterwards. -/
theorem run_region (P : Palette) (st : State) (p : Nat) (start endl : Bytes) (mids : List Bytes)
    (hcur : st.curStream = some p) (hm : (st.heap p).muted = false)
    (hs_plain : isPlain (stripTimestamp start) = true)
    (hs_tok : Contains (stripTimestamp start) (ascii "<!DOCTYPE html>") = true)
    (hs_phr : muteLines.any (fun m => Contains (stripTimestamp start) m) = false)
    (hmid : ∀ m ∈ mids, isPlain (stripTimestamp m) = true ∧
      Contains (stripTimestamp m) (ascii "</html>") = false)
    (he_plain : isPlain (stripTimestamp endl) = true)
    (he_tok : Contains (stripTimestamp endl) (ascii "</html>") = true) :
    run P st (start :: (mids ++ [endl])) =
      some (st.setStream p
        { Buffer := (st.heap p).Buffer, muted := false, unmuteWith := ascii "</html>" }) := by
  have h3 := processLine_start P st start p hs_plain hcur hm hs_tok hs_phr
  have hheap : ((st.setStream p
      { st.heap p with muted := true, unmuteWith := ascii "</html>" }).heap p)
      = { st.heap p with muted := true, unmuteWith := ascii "</html>" } := setStream_heap _ _ _
  have h4 := run_inside P p mids
    (st.setStream p { st.heap p with muted := true, unmuteWith := ascii "</html>" })
    hcur (by rw [hheap]) (by rw [hheap]; exact hmid)
  have h5 := processLine_end P
    (st.setStream p { st.heap p with muted := true, unmuteWith := ascii "</html>" })
    endl p he_plain hcur (by rw [hheap]) (by rw [hheap]) he_tok
  rw [hheap, setStream_setStream] at h5
  simp only [run, h3, run_append, h4, Option.some_bind, h5]

/-- C5, counterexample: the start line `GET / HTTP/1.1 <!DOCTYPE html>` is a
plain line with the start token, yet it opens no muted region (it holds a mute
phrase and is dropped by the phrase check), so the lines `junk` and `</html>`
that follow it are written to the buffer. -/
theorem C5_start_line_with_mute_phrase :
    isPlain (ascii "GET / HTTP/1.1 <!DOCTYPE html>") = true ∧
      Contains (ascii "GET / HTTP/1.1 <!DOCTYPE html>") (ascii "<!DOCTYPE html>") = true ∧
      parseGoLogs ansi [ascii "=== NAME  t", ascii "pre", ascii "GET / HTTP/1.1 <!DOCTYPE html>",
          ascii "junk", ascii "</html>", ascii "post", ascii "--- FAIL: t"]
        = some [(ascii "t", ascii "pre\njunk\n</html>\npost\n--- FAIL: t\n")] := by
  decide

/-- C5, amended: when the current stream is not muted, a plain line with the
start token `<!DOCTYPE html>` and without mute phrase is dropped together with
every following plain line up to and including the first one with the end
token `</html>`; after it lines pass again. For stage `n`, `pre`, start line,
middle lines, end line, `post`, failure result of `n`, the report is the block
of `n` with body `pre`, `post` and the result line, each with a newline. -/
theorem C5_muted_region (P : Palette) (n pre start endl post : Bytes) (mids : List Bytes)
    (hn : 32 ∉ n) (hpre : benign P pre = true) (hpost : benign P post = true)
    (hs_plain : isPlain (stripTimestamp start) = true)
    (hs_tok : Contains (stripTimestamp start) (ascii "<!DOCTYPE html>") = true)
    (hs_phr : muteLines.any (fun m => Contains (stripTimestamp start) m) = false)
    (hmid : ∀ m ∈ mids, isPlain (stripTimestamp m) = true ∧
      Contains (stripTimestamp m) (ascii "</html>") = false)
    (he_plain : isPlain (stripTimestamp endl) = true)
    (he_tok : Contains (stripTimestamp endl) (ascii "</html>") = true) :
    parseGoLogs P ([PrefixName ++ n, pre, start] ++ mids ++ [endl, post, PrefixFail ++ n])
      = some [(n, pre ++ [10] ++ post ++ [10] ++ (PrefixFail ++ n) ++ [10])] := by
  have h1 := processLine_stage P State.init PrefixName n (by decide) (by decide) hn
  have h2 := processLine_benign P (openStream State.init n) pre 0 hpre (by rfl) (by rfl)
  have h3 := run_region P ((openStream State.init n).write 0 (pre ++ [10])) 0 start endl mids
    (by rfl) (by rfl) hs_plain hs_tok hs_phr hmid he_plain he_tok
  have h4 := processLine_benign P
    (State.setStream ((openStream State.init n).write 0 (pre ++ [10])) 0
      { Buffer := (((openStream State.init n).write 0 (pre ++ [10])).heap 0).Buffer,
        muted := false, unmuteWith := ascii "</html>" }) post 0 hpost (by rfl) (by rfl)
  have h5 := processLine_fail P
    (State.write (State.setStream ((openStream State.init n).write 0 (pre ++ [10])) 0
      { Buffer := (((openStream State.init n).write 0 (pre ++ [10])).heap 0).Buffer,
        muted := false, unmuteWith := ascii "</html>" }) 0 (post ++ [10])) n hn
  have hsplit : [PrefixName ++ n, pre, start] ++ mids ++ [endl, post, PrefixFail ++ n]
      = [PrefixName ++ n, pre] ++ ((start :: (mids ++ [endl])) ++ [post, PrefixFail ++ n]) := by
    simp
  have h12 : run P State.init [PrefixName ++ n, pre]
      = some ((openStream State.init n).write 0 (pre ++ [10])) := by
    simp only [run, h1, h2]
  have h45 := h5
  rw [show (State.write (State.setStream ((openStream State.init n).write 0 (pre ++ [10])) 0
      { Buffer := (((openStream State.init n).write 0 (pre ++ [10])).heap 0).Buffer,
        muted := false, unmuteWith := ascii "</html>" }) 0 (post ++ [10])).scanContents n
      = some 0 from by simp [openStream, State.init, State.write, State.setStream]] at h45
  have h67 := run_two h4 h45
  unfold parseGoLogs
  rw [hsplit, run_append, h12, Option.some_bind, run_append, h3, Option.some_bind, h67]
  simp [openStream, State.init, State.write, State.setStream, report]

/-- Witness for C5: an HTML page of four lines between `pre` and `post`. -/
theorem C5_muted_region_witness :
    parseGoLogs ansi ([PrefixName ++ ascii "t", ascii "pre", ascii "<!DOCTYPE html>"]
        ++ [ascii "<body>", ascii " level=info "] ++ [ascii "</body></html>", ascii "post",
          PrefixFail ++ ascii "t"])
      = some [(ascii "t", ascii "pre" ++ [10] ++ ascii "post" ++ [10]
          ++ (PrefixFail ++ ascii "t") ++ [10])] :=
  C5_muted_region ansi (ascii "t") (ascii "pre") (ascii "<!DOCTYPE html>")
    (ascii "</body></html>") (ascii "post") [ascii "<body>", ascii " level=info "]
    (by decide) (by decide) (by decide) (by decide) (by decide) (by decide) (by decide)
    (by decide) (by decide)

/-- C6: a plain line holding a single-line mute phrase appends nothing to any
buffer, leaves the map, the order list and the current stream as they are,
mutes no stream, and leaves the whole state unchanged when the current stream
is not muted, also when the line holds a mute-pair start token. -/
theorem C6_mute_phrase_dropped (P : Palette) (st : State) (raw : Bytes)
    (hplain : isPlain (stripTimestamp raw) = true)
    (hphr : muteLines.any (fun m => Contains (stripTimestamp raw) m) = true) :
    ∃ st1, processLine P st raw = some st1 ∧
      (∀ q, (st1.heap q).Buffer = (st.heap q).Buffer) ∧
      st1.scanContents = st.scanContents ∧ st1.contentArr = st.contentArr ∧
      st1.curStream = st.curStream ∧
      (∀ q, (st.heap q).muted = false → st1.heap q = st.heap q) ∧
      (∀ p, st.curStream = some p → (st.heap p).muted = false → st1 = st) := by
  simp only [processLine, hplain, if_true]
  cases hcur : st.curStream with
  | none => exact ⟨st, rfl, fun _ => rfl, rfl, rfl, hcur, fun _ _ => rfl, fun _ _ _ => rfl⟩
  | some p =>
    refine ⟨_, rfl, ?_⟩
    unfold onContent
    by_cases hb : trimSpaceEmpty (stripTimestamp raw) = true
    · rw [if_pos hb]
      exact ⟨fun _ => rfl, rfl, rfl, hcur, fun _ _ => rfl, fun _ _ _ => rfl⟩
    · rw [if_neg hb]
      by_cases hm : (st.heap p).muted = true
      · rw [if_pos hm]
        by_cases hu : Contains (stripTimestamp raw) (st.heap p).unmuteWith = true
        · rw [if_pos hu]
          refine ⟨fun q => ?_, rfl, rfl, hcur, fun q hq => ?_, fun p1 hp1 hq => ?_⟩
          · by_cases e : q = p
            · subst e
              simp [State.setStream]
            · simp [State.setStream, e]
          · have e : q ≠ p := fun e => by rw [e, hm] at hq; exact absurd hq (by simp)
            simp [State.setStream, e]
          · simp only [Option.some.injEq] at hp1
            rw [← hp1, hm] at hq
            exact absurd hq (by simp)
        · rw [if_neg hu]
          exact ⟨fun _ => rfl, rfl, rfl, hcur, fun _ _ => rfl, fun _ _ _ => rfl⟩
      · rw [if_neg hm, if_pos hphr]
        exact ⟨fun _ => rfl, rfl, rfl, hcur, fun _ _ => rfl, fun _ _ _ => rfl⟩

/-- Witness for C6: the line `GET / HTTP/1.1 <!DOCTYPE html>` in the state
after the stage marker of `t`. -/
theorem C6_mute_phrase_dropped_witness :
    ∃ st1, processLine ansi (openStream State.init (ascii "t"))
        (ascii "GET / HTTP/1.1 <!DOCTYPE html>") = some st1 ∧
      (∀ q, (st1.heap q).Buffer = ((openStream State.init (ascii "t")).heap q).Buffer) ∧
      st1.scanContents = (openStream State.init (ascii "t")).scanContents ∧
      st1.contentArr = (openStream State.init (ascii "t")).contentArr ∧
      st1.curStream = (openStream State.init (ascii "t")).curStream ∧
      (∀ q, ((openStream State.init (ascii "t")).heap q).muted = false →
        st1.heap q = (openStream State.init (ascii "t")).heap q) ∧
      (∀ p, (openStream State.init (ascii "t")).curStream = some p →
        ((openStream State.init (ascii "t")).heap p).muted = false →
        st1 = openStream State.init (ascii "t")) :=
  C6_mute_phrase_dropped ansi (openStream State.init (ascii "t"))
    (ascii "GET / HTTP/1.1 <!DOCTYPE html>") (by decide) (by decide)

/-! ## Truncation and highlighting -/

theorem write_Buffer (st : State) (p : Nat) (bs : Bytes) :
    ((st.write p bs).heap p).Buffer = (st.heap p).Buffer ++ bs := by
  simp [State.write, State.setStream]

theorem HasPrefix_of_append {s a : Bytes} (b : Bytes) (h : HasPrefix s (a ++ b) = true) :
    HasPrefix s a = true := by
  induction a generalizing s with
  | nil => exact HasPrefix_nil _
  | cons c a ih =>
    cases s with
    | nil => simp [HasPrefix] at h
    | cons d s =>
      simp only [List.cons_append, HasPrefix, Bool.and_eq_true] at h
      simp only [HasPrefix, Bool.and_eq_true]
      exact ⟨h.1, ih h.2⟩

theorem Contains_of_append {s a : Bytes} (b : Bytes) (h : Contains s (a ++ b) = true) :
    Contains s a = true := by
  induction s with
  | nil =>
    simp only [Contains] at h ⊢
    exact HasPrefix_of_append b h
  | cons c s ih =>
    simp only [Contains, Bool.or_eq_true] at h ⊢
    rcases h with h | h
    · exact Or.inl (HasPrefix_of_append b h)
    · exact Or.inr (ih h)

/-- A line that holds `error trace:` holds `error`. -/
theorem Contains_error_of_trace {s : Bytes} (h : Contains s (ascii "error trace:") = true) :
    Contains s (ascii "error") = true := by
  have e : ascii "error trace:" = ascii "error" ++ ascii " trace:" := by decide
  rw [e] at h
  exact Contains_of_append _ h

/-- C7: a plain line that passes the mute engine and is longer than 400 bytes
is written as its first 200 bytes followed by `...`, 203 bytes of line text; one
of at most 400 bytes is written in full. Around the text stand the colour
sequences, if any, and after it the newline. -/
theorem C7_truncation (P : Palette) (st : State) (raw : Bytes) (p : Nat)
    (hplain : isPlain (stripTimestamp raw) = true) (hcur : st.curStream = some p)
    (hpass : passes st p (stripTimestamp raw) = true) :
    ∃ st1, processLine P st raw = some st1 ∧
      (400 < (stripTimestamp raw).length →
        (st1.heap p).Buffer = (st.heap p).Buffer ++
          (colorStart P ((stripTimestamp raw).take 200 ++ ascii "...")
            ++ ((stripTimestamp raw).take 200 ++ ascii "...")
            ++ (if colored P ((stripTimestamp raw).take 200 ++ ascii "...") then P.reset else [])
            ++ [10]) ∧
        ((stripTimestamp raw).take 200 ++ ascii "...").length = 203) ∧
      ((stripTimestamp raw).length ≤ 400 →
        (st1.heap p).Buffer = (st.heap p).Buffer ++
          (colorStart P (stripTimestamp raw) ++ stripTimestamp raw
            ++ (if colored P (stripTimestamp raw) then P.reset else []) ++ [10])) := by
  refine ⟨_, processLine_passes P st raw p hplain hcur hpass, fun hlong => ⟨?_, ?_⟩, fun hshort => ?_⟩
  · rw [write_Buffer]
    simp only [emitted, abbrev400, if_pos hlong]
  · have : (ascii "...").length = 3 := by decide
    rw [List.length_append, List.length_take, this]
    omega
  · rw [write_Buffer]
    simp only [emitted, abbrev400, if_neg (not_lt.mpr hshort)]

set_option maxRecDepth 100000 in
/-- Witness for C7: a line of 401 bytes `x` after the stage marker of `t`. -/
theorem C7_truncation_witness :
    ∃ st1, processLine ansi (openStream State.init (ascii "t")) (List.replicate 401 120)
        = some st1 ∧
      (400 < (stripTimestamp (List.replicate 401 120)).length →
        (st1.heap 0).Buffer = ((openStream State.init (ascii "t")).heap 0).Buffer ++
          (colorStart ansi ((stripTimestamp (List.replicate 401 120)).take 200 ++ ascii "...")
            ++ ((stripTimestamp (List.replicate 401 120)).take 200 ++ ascii "...")
            ++ (if colored ansi ((stripTimestamp (List.replicate 401 120)).take 200 ++ ascii "...")
                then ansi.reset else [])
            ++ [10]) ∧
        ((stripTimestamp (List.replicate 401 120)).take 200 ++ ascii "...").length = 203) ∧
      ((stripTimestamp (List.replicate 401 120)).length ≤ 400 →
        (st1.heap 0).Buffer = ((openStream State.init (ascii "t")).heap 0).Buffer ++
          (colorStart ansi (stripTimestamp (List.replicate 401 120))
            ++ stripTimestamp (List.replicate 401 120)
            ++ (if colored ansi (stripTimestamp (List.replicate 401 120)) then ansi.reset else [])
            ++ [10])) :=
  C7_truncation ansi (openStream State.init (ascii "t")) (List.replicate 401 120) 0
    (by decide) (by rfl) (by decide)

theorem colorStart_eq (P : Palette) (t : Bytes) :
    colorStart P t =
      (if Contains (ToLower t) (ascii "error") = true then P.bgRedFgWhite else []) ++
        (if Contains (ToLower t) (ascii "error trace:") = true then P.bgBlueFgWhite else []) := by
  unfold colorStart highlightKeywords
  by_cases h1 : Contains (ToLower t) (ascii "error") = true <;>
    by_cases h2 : Contains (ToLower t) (ascii "error trace:") = true <;>
    simp [List.filter, h1, h2]

theorem colored_eq (P : Palette) (t : Bytes) :
    colored P t = Contains (ToLower t) (ascii "error") := by
  unfold colored highlightKeywords
  cases h1 : Contains (ToLower t) (ascii "error") with
  | true => simp [h1]
  | false =>
    cases h2 : Contains (ToLower t) (ascii "error trace:") with
    | false => simp [h1, h2]
    | true => rw [Contains_error_of_trace h2] at h1; exact absurd h1 (by simp)

/-- C8, counterexample: for the line `error trace: x` the bytes appended are
two colour start sequences, the line, the reset sequence and the newline; they
are not one start sequence of the table followed by line, reset and newline. -/
theorem C8_two_start_markers :
    parseGoLogs ansi [ascii "=== NAME  t", ascii "error trace: x"]
        = some [(ascii "t", ansi.bgRedFgWhite ++ ansi.bgBlueFgWhite ++ ascii "error trace: x"
            ++ ansi.reset ++ [10])] ∧
      ∀ h ∈ highlightKeywords ansi,
        ansi.bgRedFgWhite ++ ansi.bgBlueFgWhite ++ ascii "error trace: x" ++ ansi.reset ++ [10]
          ≠ h.color ++ ascii "error trace: x" ++ ansi.reset ++ [10] := by
  decide

/-- C8, amended: for a plain line that passes the mute engine, with `t` the
line text as written (after any truncation): when `t` holds `error`, compared
case-insensitively, the bytes appended are the start sequence of the `error`
rule, then the start sequence of the `error trace:` rule when `t` also holds
`error trace:`, then `t`, one reset sequence and the newline; when it does not,
they are `t` and the newline. -/
theorem C8_highlight (P : Palette) (st : State) (raw : Bytes) (p : Nat)
    (hplain : isPlain (stripTimestamp raw) = true) (hcur : st.curStream = some p)
    (hpass : passes st p (stripTimestamp raw) = true) :
    ∃ st1, processLine P st raw = some st1 ∧
      (Contains (ToLower (abbrev400 (stripTimestamp raw))) (ascii "error") = true →
        (st1.heap p).Buffer = (st.heap p).Buffer ++
          (P.bgRedFgWhite ++
            (if Contains (ToLower (abbrev400 (stripTimestamp raw))) (ascii "error trace:") = true
              then P.bgBlueFgWhite else [])
            ++ abbrev400 (stripTimestamp raw) ++ P.reset ++ [10])) ∧
      (Contains (ToLower (abbrev400 (stripTimestamp raw))) (ascii "error") = false →
        (st1.heap p).Buffer = (st.heap p).Buffer ++ (abbrev400 (stripTimestamp raw) ++ [10])) := by
  refine ⟨_, processLine_passes P st raw p hplain hcur hpass, fun he => ?_, fun he => ?_⟩
  · rw [write_Buffer]
    simp only [emitted, colorStart_eq, colored_eq, he, if_true]
  · rw [write_Buffer]
    have h2 : Contains (ToLower (abbrev400 (stripTimestamp raw))) (ascii "error trace:") = false := by
      cases h : Contains (ToLower (abbrev400 (stripTimestamp raw))) (ascii "error trace:") with
      | false => rfl
      | true => rw [Contains_error_of_trace h] at he; exact absurd he (by simp)
    simp only [emitted, colorStart_eq, colored_eq, he, h2, Bool.false_eq_true, if_false,
      List.nil_append, List.append_nil]

/-- Witness for C8: the line `An ERROR occurred` after the stage marker of `t`. -/
theorem C8_highlight_witness :
    ∃ st1, processLine ansi (openStream State.init (ascii "t")) (ascii "An ERROR occurred")
        = some st1 ∧
      (Contains (ToLower (abbrev400 (stripTimestamp (ascii "An ERROR occurred")))) (ascii "error")
          = true →
        (st1.heap 0).Buffer = ((openStream State.init (ascii "t")).heap 0).Buffer ++
          (ansi.bgRedFgWhite ++
            (if Contains (ToLower (abbrev400 (stripTimestamp (ascii "An ERROR occurred"))))
                (ascii "error trace:") = true
              then ansi.bgBlueFgWhite else [])
            ++ abbrev400 (stripTimestamp (ascii "An ERROR occurred")) ++ ansi.reset ++ [10])) ∧
      (Contains (ToLower (abbrev400 (stripTimestamp (ascii "An ERROR occurred")))) (ascii "error")
          = false →
        (st1.heap 0).Buffer = ((openStream State.init (ascii "t")).heap 0).Buffer
          ++ (abbrev400 (stripTimestamp (ascii "An ERROR occurred")) ++ [10])) :=
  C8_highlight ansi (openStream State.init (ascii "t")) (ascii "An ERROR occurred") 0
    (by decide) (by rfl) (by decide)

/-- C9, the code at the failing input: the seven-byte line `=== RUN` starts
with the stage prefix and is shorter than `PrefixName`; the slice expression of
line 212 panics, from every state, and `parseGoLogs` prints no report. -/
theorem C9_short_stage_line_panics (P : Palette) (st : State) :
    HasPrefix (ascii "=== RUN") PrefixStage = true ∧
      processLine P st (ascii "=== RUN") = none ∧
      parseGoLogs P [ascii "=== RUN"] = none :=
  ⟨rfl, rfl, rfl⟩

/-- C10, counterexample: the last stage-or-result line naming `t2` is the
sub-result line `    --- FAIL: t2`, a well-formed result marker of `t2` that
does not begin with the failure prefix; yet `t2` is still a key of
`scanContents` at the end and the report holds its block, because the failure
test of line 245 sees the line after the trim of line 226. -/
theorem C10_indented_failure_is_reported :
    resultName (ascii "    --- FAIL: t2") = some (ascii "t2") ∧
      HasPrefix (ascii "    --- FAIL: t2") PrefixFail = false ∧
      retained ansi [ascii "=== NAME  t2", ascii "ok", ascii "    --- FAIL: t2"] (ascii "t2")
        = true ∧
      parseGoLogs ansi [ascii "=== NAME  t2", ascii "ok", ascii "    --- FAIL: t2"]
        = some [(ascii "t2", ascii "ok\n--- FAIL: t2\n")] := by
  decide

/-- C10, amended: when the last stage-or-result line naming `n` is a line that,
after the timestamp strip and the sub-result trim, is a well-formed result
marker of `n` that does not begin with the failure prefix, `n` is not a key of
`scanContents` at the end and the report has no block for `n`, whatever was
written to its stream before. -/
theorem C10_scenario_B (P : Palette) (pre post : List Bytes) (l n : Bytes)
    (blocks : List (Bytes × Bytes))
    (hr : resultName l = some n) (hf : isFailure l = false)
    (hpost : ∀ x ∈ post, stageName x ≠ some n)
    (hrun : parseGoLogs P (pre ++ l :: post) = some blocks) :
    retained P (pre ++ l :: post) n = false ∧ n ∉ names blocks := by
  obtain ⟨st, hst, hrep⟩ := parseGoLogs_some hrun
  have hkey : st.scanContents n = none := by
    rw [run_append] at hst
    cases h0 : run P State.init pre with
    | none => simp [h0] at hst
    | some s0 =>
      simp only [h0, Option.some_bind, run] at hst
      cases h1 : processLine P s0 l with
      | none => simp [h1] at hst
      | some s1 =>
        simp only [h1] at hst
        exact run_key_absent post s1 st hst (processLine_pass_key h1 hr hf) hpost
  refine ⟨?_, ?_⟩
  · simp [retained, hst, hkey]
  · intro hn
    rw [← hrep] at hn
    have := mem_names_report hn
    rw [hkey] at this
    exact absurd this (by simp)

/-- Witness for C10: a failing test `t1`, then `=== NAME  t2`, `ok`,
`--- PASS: t2`; the report holds the block of `t1` only. -/
theorem C10_scenario_B_witness :
    retained ansi ([ascii "=== NAME  t1", ascii "boom", ascii "--- FAIL: t1",
        ascii "=== NAME  t2", ascii "ok"] ++ ascii "--- PASS: t2" :: []) (ascii "t2") = false ∧
      ascii "t2" ∉ names [(ascii "t1", ascii "boom\n--- FAIL: t1\n")] :=
  C10_scenario_B ansi [ascii "=== NAME  t1", ascii "boom", ascii "--- FAIL: t1",
    ascii "=== NAME  t2", ascii "ok"] [] (ascii "--- PASS: t2") (ascii "t2")
    [(ascii "t1", ascii "boom\n--- FAIL: t1\n")] (by decide) (by decide) (by decide) (by rfl)

/-- Witness for C4: two tests interleaved, with one line before the first stage
marker. -/
theorem C4_demultiplexing_witness :
    ∃ st, run ansi State.init [ascii "zero", ascii "=== RUN   a", ascii "x", ascii "=== RUN   b",
        ascii "y", ascii "=== CONT  a", ascii "z"] = some st ∧ ∀ n,
      (n ∈ stageNames [ascii "zero", ascii "=== RUN   a", ascii "x", ascii "=== RUN   b",
          ascii "y", ascii "=== CONT  a", ascii "z"] →
        ∃ q, st.scanContents n = some q ∧ (st.heap q).Buffer =
          demux n none [ascii "zero", ascii "=== RUN   a", ascii "x", ascii "=== RUN   b",
            ascii "y", ascii "=== CONT  a", ascii "z"]) ∧
      (n ∉ stageNames [ascii "zero", ascii "=== RUN   a", ascii "x", ascii "=== RUN   b",
          ascii "y", ascii "=== CONT  a", ascii "z"] → st.scanContents n = none) :=
  C4_demultiplexing ansi [ascii "zero", ascii "=== RUN   a", ascii "x", ascii "=== RUN   b",
    ascii "y", ascii "=== CONT  a", ascii "z"] (by decide)

/-! ## Order list, blank lines, malformed results, timestamps -/

/-- C11, the code at the failing input: a test that is run twice, passing and
then failing, stands twice in the order list and has two blocks in the
report. -/
theorem C11_order_list_holds_name_twice :
    finalOrder ansi [ascii "=== RUN   TestA", ascii "--- PASS: TestA (0.00s)",
        ascii "=== RUN   TestA", ascii "    boom", ascii "--- FAIL: TestA (0.01s)"]
        = some [ascii "TestA", ascii "TestA"] ∧
      parseGoLogs ansi [ascii "=== RUN   TestA", ascii "--- PASS: TestA (0.00s)",
        ascii "=== RUN   TestA", ascii "    boom", ascii "--- FAIL: TestA (0.01s)"]
        = some [(ascii "TestA", ascii "    boom\n--- FAIL: TestA (0.01s)\n"),
                (ascii "TestA", ascii "    boom\n--- FAIL: TestA (0.01s)\n")] := by
  decide

/-- A line made of white-space runes holds no byte that occurs in no
white-space rune. -/
theorem allSpace_not_mem (b : Nat) (hb : ∀ r ∈ spaceRunes, b ∉ r) :
    ∀ (fuel : Nat) (l : Bytes), allSpace fuel l = true → b ∉ l := by
  intro fuel
  induction fuel with
  | zero =>
    intro l h
    cases l with
    | nil => exact List.not_mem_nil _
    | cons c s => simp [allSpace] at h
  | succ f ih =>
    intro l h
    cases l with
    | nil => exact List.not_mem_nil _
    | cons c s =>
      simp only [allSpace] at h
      split at h
      · rename_i r hr
        have hmem : r ∈ spaceRunes := List.mem_of_find?_eq_some hr
        have hpre : HasPrefix (c :: s) r = true := by
          have := List.find?_some hr
          simpa using this
        rw [HasPrefix_eq_append hpre]
        intro hc
        rcases List.mem_append.mp hc with hc | hc
        · exact hb r hmem hc
        · exact ih _ h hc
      · exact absurd h (by simp)

/-- A blank line starts with none of the marker prefixes. -/
theorem isPlain_of_blank {line : Bytes} (h : trimSpaceEmpty line = true) :
    isPlain line = true := by
  have h61 : 61 ∉ line := allSpace_not_mem 61 (by decide) _ _ h
  have h45 : 45 ∉ line := allSpace_not_mem 45 (by decide) _ _ h
  have h1 : HasPrefix line PrefixStage = false := by
    cases hp : HasPrefix line PrefixStage with
    | false => rfl
    | true => exact absurd (HasPrefix_mem hp 61 (by decide)) h61
  have h2 : HasPrefix line PrefixResult = false := by
    cases hp : HasPrefix line PrefixResult with
    | false => rfl
    | true => exact absurd (HasPrefix_mem hp 45 (by decide)) h45
  have h3 : HasPrefix line PrefixSubResult = false := by
    cases hp : HasPrefix line PrefixSubResult with
    | false => rfl
    | true => exact absurd (HasPrefix_mem hp 45 (by decide)) h45
  simp [isPlain, h1, h2, h3]

/-- C12: a line that is empty or made of white space only is a plain content
line, and processing it leaves the whole state unchanged: no buffer, no muted
flag and no unmute marker changes, whether or not the current stream is
muted. -/
theorem C12_blank_line_no_effect (P : Palette) (st : State) (raw : Bytes)
    (hb : trimSpaceEmpty (stripTimestamp raw) = true) :
    isPlain (stripTimestamp raw) = true ∧ processLine P st raw = some st := by
  have hp := isPlain_of_blank hb
  refine ⟨hp, ?_⟩
  simp only [processLine, hp, if_true]
  cases hcur : st.curStream with
  | none => rfl
  | some p => simp only [onContent, hb, if_true]

/-- Witness for C12: a line of a tab, a no-break space and a space, met while
the current stream is muted. -/
theorem C12_blank_line_no_effect_witness :
    isPlain (stripTimestamp [9, 0xC2, 0xA0, 32]) = true ∧
      processLine ansi
        ((openStream State.init (ascii "t")).setStream 0
          { Buffer := [], muted := true, unmuteWith := ascii "</html>" })
        [9, 0xC2, 0xA0, 32]
        = some ((openStream State.init (ascii "t")).setStream 0
          { Buffer := [], muted := true, unmuteWith := ascii "</html>" }) :=
  C12_blank_line_no_effect ansi _ [9, 0xC2, 0xA0, 32] (by decide)

/-- C13: a line with the result or the sub-result prefix that, after the
sub-result trim, has fewer than three pieces, or whose second piece does not
end in a colon, or whose third piece is not a key of `scanContents`, leaves the
whole state unchanged, and the loop goes on with the next line. -/
theorem C13_malformed_result_ignored (P : Palette) (st : State) (raw : Bytes)
    (hnp : isPlain (stripTimestamp raw) = false)
    (hns : HasPrefix (stripTimestamp raw) PrefixStage = false)
    (hbad : (Split (trimSub (stripTimestamp raw))).length < 3 ∨
      HasSuffix ((Split (trimSub (stripTimestamp raw))).getD 1 []) (ascii ":") = false ∨
      st.scanContents ((Split (trimSub (stripTimestamp raw))).getD 2 []) = none) :
    processLine P st raw = some st ∧ ∀ rest, run P st (raw :: rest) = run P st rest := by
  have h : processLine P st raw = some st := by
    simp only [processLine, hnp, hns, if_false, Bool.false_eq_true, onResult]
    split
    · split
      · rfl
      · rename_i hlen
        split
        · rfl
        · rename_i hsuf
          rcases hbad with hb | hb | hb
          · exact absurd hb hlen
          · rw [hb] at hsuf
            exact absurd rfl hsuf
          · rw [hb]
    · rfl
  exact ⟨h, fun rest => by simp only [run, h]⟩

/-- Witness for C13: a failure result for a name that no stage marker
announced. -/
theorem C13_malformed_result_ignored_witness :
    processLine ansi (openStream State.init (ascii "t")) (ascii "--- FAIL: ghost")
        = some (openStream State.init (ascii "t")) ∧
      ∀ rest, run ansi (openStream State.init (ascii "t")) (ascii "--- FAIL: ghost" :: rest)
        = run ansi (openStream State.init (ascii "t")) rest :=
  C13_malformed_result_ignored ansi (openStream State.init (ascii "t")) (ascii "--- FAIL: ghost")
    (by decide) (by decide) (Or.inr (Or.inr (by decide)))

/-- C14: a line longer than 29 bytes with a space at offset 28 loses its first
29 bytes, a line of at most 29 bytes is never stripped, and a line made of a
29-byte prefix ending in a space and a non-empty line that is not
timestamp-shaped is processed as that line is. -/
theorem C14_timestamp_strip (P : Palette) :
    (∀ ln : Bytes, ln.length > 29 → ln.get? 28 = some 32 → stripTimestamp ln = ln.drop 29) ∧
      (∀ ln : Bytes, ln.length ≤ 29 → stripTimestamp ln = ln) ∧
      ∀ (s : State) (ts l : Bytes), ts.length = 29 → ts.get? 28 = some 32 → l ≠ [] →
        timestampShaped l = false → processLine P s (ts ++ l) = processLine P s l := by
  refine ⟨fun ln h1 h2 => ?_, fun ln h => ?_, fun s ts l hts h28 hl hnot => ?_⟩
  · have hsh : timestampShaped ln = true := by
      unfold timestampShaped
      rw [h2]
      simp [h1]
    simp only [stripTimestamp, hsh, if_true]
  · have : ¬ ln.length > 29 := by omega
    simp [stripTimestamp, timestampShaped, this]
  · have hlen : (ts ++ l).length > 29 := by
      have : 0 < l.length := List.length_pos.mpr hl
      rw [List.length_append]
      omega
    have hget : (ts ++ l).get? 28 = some 32 := by
      rw [List.get?_eq_getElem?, List.getElem?_append_left (by omega), ← List.get?_eq_getElem?]
      exact h28
    have h1 : stripTimestamp (ts ++ l) = l := by
      have hsh : timestampShaped (ts ++ l) = true := by
        unfold timestampShaped
        rw [hget]
        simp only [beq_self_eq_true, Bool.and_true, decide_eq_true_eq]
        exact hlen
      simp only [stripTimestamp, hsh, if_true]
      exact List.drop_left' hts
    have h2 : stripTimestamp l = l := by
      simp [stripTimestamp, hnot]
    simp only [processLine, h1, h2]

/-- Witness for C14: a log line with a 29-byte time prefix. -/
theorem C14_timestamp_strip_witness :
    stripTimestamp (ascii "2024-03-01T12:34:56.1234567Z === RUN   TestA")
        = (ascii "2024-03-01T12:34:56.1234567Z === RUN   TestA").drop 29 ∧
      stripTimestamp (ascii "=== RUN   TestA") = ascii "=== RUN   TestA" ∧
      processLine ansi State.init (ascii "2024-03-01T12:34:56.1234567Z " ++ ascii "=== RUN   TestA")
        = processLine ansi State.init (ascii "=== RUN   TestA") :=
  ⟨(C14_timestamp_strip ansi).1 _ (by decide) (by decide),
   (C14_timestamp_strip ansi).2.1 _ (by decide),
   (C14_timestamp_strip ansi).2.2 State.init (ascii "2024-03-01T12:34:56.1234567Z ")
     (ascii "=== RUN   TestA") (by decide) (by decide) (by decide) (by decide)⟩

/-! ## Several highlight phrases, sub-results, stage kinds -/

/-- C15, counterexample: for the line `ERROR TRACE: boom` both colour start
sequences stand before the line text; the bytes written are not the start
sequence of the last matching rule alone followed by text, reset and
newline. -/
theorem C15_both_start_markers_written :
    parseGoLogs ansi [ascii "=== NAME  t", ascii "ERROR TRACE: boom"]
        = some [(ascii "t", ansi.bgRedFgWhite ++ ansi.bgBlueFgWhite ++ ascii "ERROR TRACE: boom"
            ++ ansi.reset ++ [10])] ∧
      ansi.bgRedFgWhite ++ ansi.bgBlueFgWhite ++ ascii "ERROR TRACE: boom" ++ ansi.reset ++ [10]
        ≠ ansi.bgBlueFgWhite ++ ascii "ERROR TRACE: boom" ++ ansi.reset ++ [10] := by
  decide

/-- C15, amended: a plain line that passes the mute engine and whose text as
written holds `error trace:`, compared case-insensitively, also holds `error`;
before the text the start sequences of both rules are written, in table order,
and after it exactly one reset sequence, then the newline. -/
theorem C15_all_matching_markers (P : Palette) (st : State) (raw : Bytes) (p : Nat)
    (hplain : isPlain (stripTimestamp raw) = true) (hcur : st.curStream = some p)
    (hpass : passes st p (stripTimestamp raw) = true)
    (htr : Contains (ToLower (abbrev400 (stripTimestamp raw))) (ascii "error trace:") = true) :
    ∃ st1, processLine P st raw = some st1 ∧
      Contains (ToLower (abbrev400 (stripTimestamp raw))) (ascii "error") = true ∧
      (st1.heap p).Buffer = (st.heap p).Buffer ++
        (P.bgRedFgWhite ++ P.bgBlueFgWhite ++ abbrev400 (stripTimestamp raw) ++ P.reset ++ [10]) := by
  have he := Contains_error_of_trace htr
  refine ⟨_, processLine_passes P st raw p hplain hcur hpass, he, ?_⟩
  rw [write_Buffer]
  simp only [emitted, colorStart_eq, colored_eq, he, htr, if_true, List.append_assoc]

/-- Witness for C15: the line `ERROR TRACE: boom` after the stage marker of `t`. -/
theorem C15_all_matching_markers_witness :
    ∃ st1, processLine ansi (openStream State.init (ascii "t")) (ascii "ERROR TRACE: boom")
        = some st1 ∧
      Contains (ToLower (abbrev400 (stripTimestamp (ascii "ERROR TRACE: boom")))) (ascii "error")
        = true ∧
      (st1.heap 0).Buffer = ((openStream State.init (ascii "t")).heap 0).Buffer ++
        (ansi.bgRedFgWhite ++ ansi.bgBlueFgWhite
          ++ abbrev400 (stripTimestamp (ascii "ERROR TRACE: boom")) ++ ansi.reset ++ [10]) :=
  C15_all_matching_markers ansi (openStream State.init (ascii "t")) (ascii "ERROR TRACE: boom") 0
    (by decide) (by rfl) (by decide) (by decide)

/-- A well-formed result marker of a key of `scanContents`: the current stream
is cleared; the key is deleted when the trimmed line lacks the failure prefix,
and the trimmed line with a newline is appended to its stream otherwise. -/
theorem processLine_of_resultName {P : Palette} {st : State} {raw n : Bytes} {p : Nat}
    (hr : resultName raw = some n) (hk : st.scanContents n = some p) :
    processLine P st raw =
      some (if isFailure raw = true then
          State.write { st with curStream := none } p (trimSub (stripTimestamp raw) ++ [10])
        else
          { st with curStream := none
                    scanContents := fun k => if k = n then none else st.scanContents k }) := by
  unfold resultName at hr
  split at hr
  · rename_i hc
    simp only [Bool.and_eq_true, Bool.not_eq_true', decide_eq_true_eq] at hc
    obtain ⟨⟨⟨⟨hpl, hst⟩, hres⟩, hlen⟩, hsuf⟩ := hc
    simp only [Option.some.injEq] at hr
    by_cases hf : HasPrefix (trimSub (stripTimestamp raw)) PrefixFail = true
    · simp only [processLine, hpl, hst, if_false, Bool.false_eq_true, onResult, hres, if_true,
        not_lt.mpr hlen, hsuf, Bool.not_true, hr, hk, isFailure, hf]
    · have hf2 : HasPrefix (trimSub (stripTimestamp raw)) PrefixFail = false := by
        simpa using hf
      simp only [processLine, hpl, hst, if_false, Bool.false_eq_true, onResult, hres, if_true,
        not_lt.mpr hlen, hsuf, Bool.not_true, hr, hk, isFailure, hf2, Bool.not_false]
  · exact absurd hr (by simp)

/-- C16, counterexample: the sub-result line `    --- FAIL: n` does not start
with the failure prefix, yet the stream of `n` is retained and the trimmed line
is appended to it. -/
theorem C16_sub_result_failure_retained :
    HasPrefix (ascii "    --- FAIL: n") PrefixFail = false ∧
      parseGoLogs ansi [ascii "=== NAME  n", ascii "x", ascii "    --- FAIL: n"]
        = some [(ascii "n", ascii "x\n--- FAIL: n\n")] := by
  decide

/-- C16, amended: for a well-formed result marker naming a key of
`scanContents` the current stream is cleared, and the key is deleted exactly
when the line after the sub-result trim does not start with the failure
prefix; otherwise the stream is retained and the trimmed line with a newline
is appended to it. So `    --- FAIL: n` retains the stream as `--- FAIL: n`
does. -/
theorem C16_result_tested_after_trim (P : Palette) (st : State) (raw n : Bytes) (p : Nat)
    (hr : resultName raw = some n) (hk : st.scanContents n = some p) :
    (isFailure raw = false →
        processLine P st raw = some { st with
          curStream := none
          scanContents := fun k => if k = n then none else st.scanContents k }) ∧
      (isFailure raw = true →
        processLine P st raw =
          some (State.write { st with curStream := none } p
            (trimSub (stripTimestamp raw) ++ [10]))) := by
  refine ⟨fun hf => ?_, fun hf => ?_⟩
  · rw [processLine_of_resultName hr hk, hf]
    simp
  · rw [processLine_of_resultName hr hk, hf]
    simp

/-- Witness for C16: the sub-result line `    --- FAIL: n` after the stage
marker of `n`. -/
theorem C16_result_tested_after_trim_witness :
    processLine ansi (openStream State.init (ascii "n")) (ascii "    --- FAIL: n") =
      some (State.write { openStream State.init (ascii "n") with curStream := none } 0
        (trimSub (stripTimestamp (ascii "    --- FAIL: n")) ++ [10])) :=
  (C16_result_tested_after_trim ansi (openStream State.init (ascii "n"))
    (ascii "    --- FAIL: n") (ascii "n") 0 (by decide) (by rfl)).2 (by decide)

theorem timestampShaped_prefix10 (p r : Bytes) (hp : p.length = 10) :
    timestampShaped (p ++ r) = (decide (r.length > 19) && (r.get? 18 == some 32)) := by
  unfold timestampShaped
  have h1 : (p ++ r).get? 28 = r.get? 18 := by
    rw [List.get?_eq_getElem?, List.getElem?_append_right (by omega), hp,
      List.get?_eq_getElem?]
  have h2 : decide ((p ++ r).length > 29) = decide (r.length > 19) := by
    rw [decide_eq_decide, List.length_append, hp]
    omega
  rw [h1, h2]

theorem stripTimestamp_prefix10_shaped (p r : Bytes) (hp : p.length = 10)
    (hsh : timestampShaped (p ++ r) = true) : stripTimestamp (p ++ r) = r.drop 19 := by
  simp only [stripTimestamp, hsh, if_true]
  have := @List.drop_append _ p r 19
  rw [hp] at this
  exact this

theorem Split_head (r : Bytes) : (Split r).headD [] = firstToken r := by
  induction r with
  | nil => rfl
  | cons c r ih =>
    by_cases hc : c = 32
    · subst hc
      simp [Split, firstToken]
    · have hne : (c != 32) = true := by simpa using hc
      have ht : firstToken (c :: r) = c :: firstToken r := by
        simp only [firstToken, List.takeWhile_cons, hne, if_true]
      rw [ht, ← ih]
      simp only [Split, hc, if_false]
      cases Split r with
      | nil => rfl
      | cons h t => rfl

/-- A stage marker made of a ten-byte prefix and a rest, when the whole line is
not timestamp-shaped, opens the stream named by the first piece of the rest. -/
theorem processLine_stage_unshaped (P : Palette) (st : State) (p r : Bytes) (hp : p.length = 10)
    (hps : HasPrefix p PrefixStage = true) (hsh : timestampShaped (p ++ r) = false) :
    processLine P st (p ++ r) = some (openStream st (firstToken r)) := by
  have h1 : HasPrefix (p ++ r) PrefixStage = true := HasPrefix_append_of r hps
  have hstrip : stripTimestamp (p ++ r) = p ++ r := by simp [stripTimestamp, hsh]
  have hlen : ¬ (p ++ r).length < PrefixName.length := by
    have : PrefixName.length = 10 := by decide
    simp only [List.length_append, this]
    omega
  have hd : List.drop PrefixName.length (p ++ r) = r :=
    List.drop_left' (by rw [hp]; decide)
  simp only [processLine, hstrip, isPlain_of_stage h1, h1, onStage, hlen, if_false, if_true,
    Bool.false_eq_true, hd, Split_head]

/-- Two stage markers with the same rest after their ten-byte prefixes are
processed alike. -/
theorem processLine_stage_kind (P : Palette) (st : State) (p1 p2 r : Bytes)
    (h1 : p1.length = 10) (h2 : p2.length = 10)
    (hs1 : HasPrefix p1 PrefixStage = true) (hs2 : HasPrefix p2 PrefixStage = true) :
    processLine P st (p1 ++ r) = processLine P st (p2 ++ r) := by
  have e : timestampShaped (p1 ++ r) = timestampShaped (p2 ++ r) := by
    rw [timestampShaped_prefix10 p1 r h1, timestampShaped_prefix10 p2 r h2]
  cases hsh : timestampShaped (p1 ++ r) with
  | true =>
    have hsh2 : timestampShaped (p2 ++ r) = true := by rw [← e, hsh]
    simp only [processLine, stripTimestamp_prefix10_shaped p1 r h1 hsh,
      stripTimestamp_prefix10_shaped p2 r h2 hsh2]
  | false =>
    have hsh2 : timestampShaped (p2 ++ r) = false := by rw [← e, hsh]
    rw [processLine_stage_unshaped P st p1 r h1 hs1 hsh,
      processLine_stage_unshaped P st p2 r h2 hs2 hsh2]

/-- C18, counterexample: the rest `TestParseConfigAll (cached)` has a space at
its offset 18, so the stage line is taken for a timestamped line and loses its
first 29 bytes; no stream is opened for `TestParseConfigAll`. -/
theorem C18_stage_line_stripped_as_timestamp :
    firstToken (ascii "TestParseConfigAll (cached)") = ascii "TestParseConfigAll" ∧
      retained ansi [PrefixName ++ ascii "TestParseConfigAll (cached)"]
        (ascii "TestParseConfigAll") = false ∧
      finalOrder ansi [PrefixName ++ ascii "TestParseConfigAll (cached)"] = some [] := by
  decide

/-- C18, amended: the four stage kinds are processed alike for every state and
every rest `r`; when the line is not timestamp-shaped (`r` has at most 19
bytes or no space at its offset 18) the result is the state in which the
stream named by the part of `r` before its first space is the current one. -/
theorem C18_stage_kinds_alike (P : Palette) (st : State) (r : Bytes) :
    processLine P st (PrefixRun ++ r) = processLine P st (PrefixName ++ r) ∧
      processLine P st (PrefixPause ++ r) = processLine P st (PrefixName ++ r) ∧
      processLine P st (PrefixCont ++ r) = processLine P st (PrefixName ++ r) ∧
      (timestampShaped (PrefixName ++ r) = false →
        processLine P st (PrefixName ++ r) = some (openStream st (firstToken r))) :=
  ⟨processLine_stage_kind P st PrefixRun PrefixName r (by decide) (by decide) (by decide)
      (by decide),
   processLine_stage_kind P st PrefixPause PrefixName r (by decide) (by decide) (by decide)
      (by decide),
   processLine_stage_kind P st PrefixCont PrefixName r (by decide) (by decide) (by decide)
      (by decide),
   fun hsh => processLine_stage_unshaped P st PrefixName r (by decide) (by decide) hsh⟩

/-- Witness for C18: the rest `TestA/sub extra`. -/
theorem C18_stage_kinds_alike_witness :
    processLine ansi State.init (PrefixName ++ ascii "TestA/sub extra")
      = some (openStream State.init (firstToken (ascii "TestA/sub extra"))) :=
  (C18_stage_kinds_alike ansi State.init (ascii "TestA/sub extra")).2.2.2 (by decide)

/-! ## After a result marker -/

theorem processLine_plain_cur_none {P : Palette} {st : State} {x : Bytes}
    (hp : isPlain (stripTimestamp x) = true) (hc : st.curStream = none) :
    processLine P st x = some st := by
  simp only [processLine, hp, if_true, hc]

theorem processLine_result_line {P : Palette} {st : State} {x : Bytes}
    (hp : isPlain (stripTimestamp x) = false)
    (hs : HasPrefix (stripTimestamp x) PrefixStage = false) :
    processLine P st x = some (onResult st (stripTimestamp x)) := by
  simp only [processLine, hp, hs, if_false, Bool.false_eq_true]

theorem onResult_cur_none {st : State} (l : Bytes) (hc : st.curStream = none) :
    (onResult st l).curStream = none := by
  unfold onResult
  simp only
  repeat (first | exact hc | rfl | split)

/-- While no stream is current and no stage marker comes, plain lines can be
left out of the input without any change of the result. -/
theorem run_skip_plain (P : Palette) :
    ∀ (rest : List Bytes) (st : State), st.curStream = none →
      (∀ x ∈ rest, HasPrefix (stripTimestamp x) PrefixStage = false) →
      run P st rest = run P st (rest.filter (fun x => !isPlain (stripTimestamp x))) := by
  intro rest
  induction rest with
  | nil => intro st _ _; rfl
  | cons x xs ih =>
    intro st hc hall
    have hxs : ∀ y ∈ xs, HasPrefix (stripTimestamp y) PrefixStage = false :=
      fun y hy => hall y (List.mem_cons_of_mem _ hy)
    cases hp : isPlain (stripTimestamp x) with
    | true =>
      have hf : List.filter (fun x => !isPlain (stripTimestamp x)) (x :: xs)
          = List.filter (fun x => !isPlain (stripTimestamp x)) xs := by
        simp [List.filter, hp]
      rw [hf, ← ih st hc hxs]
      simp only [run, processLine_plain_cur_none hp hc]
    | false =>
      have hf : List.filter (fun x => !isPlain (stripTimestamp x)) (x :: xs)
          = x :: List.filter (fun x => !isPlain (stripTimestamp x)) xs := by
        simp [List.filter, hp]
      have hstep := @processLine_result_line P st x hp
        (hall x (List.mem_cons_self _ _))
      rw [hf]
      simp only [run, hstep]
      exact ih _ (onResult_cur_none _ hc) hxs

theorem run_plain_cur_none (P : Palette) :
    ∀ (rest : List Bytes) (st : State), st.curStream = none →
      (∀ x ∈ rest, isPlain (stripTimestamp x) = true) → run P st rest = some st := by
  intro rest
  induction rest with
  | nil => intro st _ _; rfl
  | cons x xs ih =>
    intro st hc hall
    simp only [run, processLine_plain_cur_none (hall x (List.mem_cons_self _ _)) hc]
    exact ih st hc (fun y hy => hall y (List.mem_cons_of_mem _ hy))

/-- C19: after a well-formed result marker naming a key of `scanContents`,
failure or not, and whichever stream was current, no stream is current; every
run of plain lines that follows leaves the whole state unchanged, and up to the
next stage marker the plain lines can be left out of the input without any
change of the result. -/
theorem C19_content_after_result_dropped (P : Palette) (st : State) (raw n : Bytes) (p : Nat)
    (hr : resultName raw = some n) (hk : st.scanContents n = some p) :
    ∃ st1, processLine P st raw = some st1 ∧ st1.curStream = none ∧
      (∀ rest, (∀ x ∈ rest, isPlain (stripTimestamp x) = true) → run P st1 rest = some st1) ∧
      (∀ rest, (∀ x ∈ rest, HasPrefix (stripTimestamp x) PrefixStage = false) →
        run P st1 rest = run P st1 (rest.filter (fun x => !isPlain (stripTimestamp x)))) := by
  refine ⟨_, processLine_of_resultName hr hk, ?_, ?_⟩
  · split <;> rfl
  · have hc : (if isFailure raw = true then
          State.write { st with curStream := none } p (trimSub (stripTimestamp raw) ++ [10])
        else
          { st with curStream := none
                    scanContents := fun k => if k = n then none else st.scanContents k }
          ).curStream = none := by
      split <;> rfl
    exact ⟨fun rest h => run_plain_cur_none P rest _ hc h,
      fun rest h => run_skip_plain P rest _ hc h⟩

/-- Witness for C19: the failure result of `t` while the stream of `u` is the
current one. -/
theorem C19_content_after_result_dropped_witness :
    ∃ st1, processLine ansi (openStream (openStream State.init (ascii "t")) (ascii "u"))
        (ascii "--- FAIL: t") = some st1 ∧ st1.curStream = none ∧
      (∀ rest, (∀ x ∈ rest, isPlain (stripTimestamp x) = true) → run ansi st1 rest = some st1) ∧
      (∀ rest, (∀ x ∈ rest, HasPrefix (stripTimestamp x) PrefixStage = false) →
        run ansi st1 rest
          = run ansi st1 (rest.filter (fun x => !isPlain (stripTimestamp x)))) :=
  C19_content_after_result_dropped ansi (openStream (openStream State.init (ascii "t")) (ascii "u"))
    (ascii "--- FAIL: t") (ascii "t") 0 (by decide) (by rfl)

/-! ## The shapes of one step and the reachable states -/

/-- A line with the result or sub-result prefix that is not a well-formed
result marker leaves the state as it is. -/
theorem processLine_not_result {P : Palette} {st : State} {x : Bytes}
    (hp : isPlain (stripTimestamp x) = false)
    (hs : HasPrefix (stripTimestamp x) PrefixStage = false)
    (hr : resultName x = none) : processLine P st x = some st := by
  rw [processLine_result_line hp hs]
  unfold onResult
  simp only
  split
  · rename_i hres
    split
    · rfl
    · rename_i hlen
      split
      · rfl
      · rename_i hsuf
        simp only [Bool.not_eq_true, Bool.not_eq_false'] at hsuf
        have : resultName x = some ((Split (trimSub (stripTimestamp x))).getD 2 []) := by
          unfold resultName
          rw [if_pos]
          rw [hp, hs, hres, hsuf]
          simpa using not_lt.mp hlen
        rw [hr] at this
        exact absurd this (by simp)
  · rfl

/-- A well-formed result marker whose name is no key of `scanContents` leaves
the state as it is. -/
theorem processLine_unknown_result {P : Palette} {st : State} {x k : Bytes}
    (hr : resultName x = some k) (hk : st.scanContents k = none) :
    processLine P st x = some st := by
  unfold resultName at hr
  split at hr
  · rename_i hc
    simp only [Bool.and_eq_true, Bool.not_eq_true', decide_eq_true_eq] at hc
    obtain ⟨⟨⟨⟨hpl, hst⟩, hres⟩, hlen⟩, hsuf⟩ := hc
    simp only [Option.some.injEq] at hr
    simp only [processLine, hpl, hst, if_false, Bool.false_eq_true, onResult, hres, if_true,
      not_lt.mpr hlen, hsuf, Bool.not_true, hr, hk]
  · exact absurd hr (by simp)

/-- The shapes of one successful step: nothing changes, or a plain line goes
through `onContent` on the current stream, or a stage marker opens a stream, or
a well-formed result of a key appends the result line, or it deletes the key. -/
theorem processLine_cases {P : Palette} {st st1 : State} {x : Bytes}
    (h : processLine P st x = some st1) :
    st1 = st ∨
      (∃ q, isPlain (stripTimestamp x) = true ∧ st.curStream = some q ∧
        st1 = onContent P st q (stripTimestamp x)) ∨
      (∃ m, stageName x = some m ∧ st1 = openStream st m) ∨
      (∃ k q, resultName x = some k ∧ st.scanContents k = some q ∧ isFailure x = true ∧
        st1 = State.write { st with curStream := none } q
          (trimSub (stripTimestamp x) ++ [10])) ∨
      (∃ k q, resultName x = some k ∧ st.scanContents k = some q ∧ isFailure x = false ∧
        st1 = { st with curStream := none
                        scanContents := fun j => if j = k then none else st.scanContents j }) := by
  cases hp : isPlain (stripTimestamp x) with
  | true =>
    cases hc : st.curStream with
    | none =>
      rw [processLine_plain_cur_none hp hc] at h
      exact Or.inl (Option.some.inj h).symm
    | some q =>
      simp only [processLine, hp, if_true, hc, Option.some.injEq] at h
      exact Or.inr (Or.inl ⟨q, rfl, rfl, h.symm⟩)
  | false =>
    cases hs : HasPrefix (stripTimestamp x) PrefixStage with
    | true =>
      simp only [processLine, hp, hs, if_true, if_false, Bool.false_eq_true, onStage] at h
      split at h
      · exact absurd h (by simp)
      · rename_i hlen
        simp only [Option.some.injEq] at h
        refine Or.inr (Or.inr (Or.inl ⟨_, ?_, h.symm⟩))
        simp [stageName, hs, not_lt.mp hlen]
    | false =>
      cases hr : resultName x with
      | none =>
        rw [processLine_not_result hp hs hr] at h
        exact Or.inl (Option.some.inj h).symm
      | some k =>
        cases hk : st.scanContents k with
        | none =>
          rw [processLine_unknown_result hr hk] at h
          exact Or.inl (Option.some.inj h).symm
        | some q =>
          rw [processLine_of_resultName hr hk] at h
          cases hf : isFailure x with
          | true =>
            simp only [hf, if_true, Option.some.injEq] at h
            exact Or.inr (Or.inr (Or.inr (Or.inl ⟨k, q, rfl, hk, rfl, h.symm⟩)))
          | false =>
            simp only [hf, Bool.false_eq_true, if_false, Option.some.injEq] at h
            exact Or.inr (Or.inr (Or.inr (Or.inr ⟨k, q, rfl, hk, rfl, h.symm⟩)))

/-- What `onContent` leaves alone: the map, the order list, the current
stream, the allocation mark and every stream but the one at `p`, whose buffer
is only extended. -/
theorem onContent_frame (P : Palette) (st : State) (p : Nat) (line : Bytes) :
    (onContent P st p line).scanContents = st.scanContents ∧
      (onContent P st p line).contentArr = st.contentArr ∧
      (onContent P st p line).curStream = st.curStream ∧
      (onContent P st p line).next = st.next ∧
      (∀ q, q ≠ p → (onContent P st p line).heap q = st.heap q) ∧
      ∃ ext, ((onContent P st p line).heap p).Buffer = (st.heap p).Buffer ++ ext := by
  have hset : ∀ s : stream, s.Buffer = (st.heap p).Buffer →
      (st.setStream p s).scanContents = st.scanContents ∧
      (st.setStream p s).contentArr = st.contentArr ∧
      (st.setStream p s).curStream = st.curStream ∧
      (st.setStream p s).next = st.next ∧
      (∀ q, q ≠ p → (st.setStream p s).heap q = st.heap q) ∧
      ∃ ext, ((st.setStream p s).heap p).Buffer = (st.heap p).Buffer ++ ext := by
    intro s hs
    refine ⟨rfl, rfl, rfl, rfl, fun q hq => ?_, [], ?_⟩
    · simp [State.setStream, hq]
    · rw [setStream_heap, hs, List.append_nil]
  have hid : (st.scanContents = st.scanContents ∧ st.contentArr = st.contentArr ∧
      st.curStream = st.curStream ∧ st.next = st.next ∧ (∀ q, q ≠ p → st.heap q = st.heap q) ∧
      ∃ ext, (st.heap p).Buffer = (st.heap p).Buffer ++ ext) :=
    ⟨rfl, rfl, rfl, rfl, fun _ _ => rfl, [], (List.append_nil _).symm⟩
  unfold onContent
  split
  · exact hid
  · split
    · split
      · exact hset _ rfl
      · exact hid
    · split
      · exact hid
      · split
        · exact hset _ rfl
        · refine ⟨rfl, rfl, rfl, rfl, fun q hq => ?_, _, write_Buffer st p _⟩
          simp [State.write, State.setStream, hq]

theorem WellFormed_init : WellFormed State.init where
  inj := by intro a b q h; simp [State.init] at h
  bound := by intro a q h; simp [State.init] at h
  listed := by intro a q h; simp [State.init] at h

theorem openStream_WellFormed {st : State} (hw : WellFormed st) (m : Bytes) :
    WellFormed (openStream st m) := by
  unfold openStream
  split
  · exact { inj := hw.inj, bound := hw.bound, listed := hw.listed }
  · rename_i hq
    refine { inj := ?_, bound := ?_, listed := ?_ }
    · intro a b q ha hb
      simp only at ha hb
      by_cases ea : a = m <;> by_cases eb : b = m
      · rw [ea, eb]
      · simp only [if_pos ea, if_neg eb, Option.some.injEq] at ha hb
        have := hw.bound b q hb
        omega
      · simp only [if_neg ea, if_pos eb, Option.some.injEq] at ha hb
        have := hw.bound a q ha
        omega
      · simp only [if_neg ea, if_neg eb] at ha hb
        exact hw.inj a b q ha hb
    · intro a q ha
      simp only at ha ⊢
      by_cases ea : a = m
      · simp only [if_pos ea, Option.some.injEq] at ha
        omega
      · simp only [if_neg ea] at ha
        have := hw.bound a q ha
        omega
    · intro a q ha
      simp only at ha ⊢
      by_cases ea : a = m
      · rw [ea]
        exact List.mem_append_right _ (List.mem_singleton_self _)
      · simp only [if_neg ea] at ha
        exact List.mem_append_left _ (hw.listed a q ha)

/-- One step keeps the state well formed. -/
theorem processLine_WellFormed {P : Palette} {st st1 : State} {x : Bytes}
    (hw : WellFormed st) (h : processLine P st x = some st1) : WellFormed st1 := by
  rcases processLine_cases h with e | ⟨q, _, _, e⟩ | ⟨m, _, e⟩ | ⟨k, q, _, _, _, e⟩ |
    ⟨k, q, _, _, _, e⟩
  · rw [e]; exact hw
  · obtain ⟨h1, h2, _, h4, _, _⟩ := onContent_frame P st q (stripTimestamp x)
    rw [e]
    exact
      { inj := by rw [h1]; exact hw.inj
        bound := by rw [h1, h4]; exact hw.bound
        listed := by rw [h1, h2]; exact hw.listed }
  · rw [e]; exact openStream_WellFormed hw m
  · rw [e]; exact { inj := hw.inj, bound := hw.bound, listed := hw.listed }
  · rw [e]
    refine { inj := ?_, bound := ?_, listed := ?_ }
    · intro a b r ha hb
      simp only at ha hb
      by_cases ea : a = k
      · simp [ea] at ha
      · by_cases eb : b = k
        · simp [eb] at hb
        · simp only [if_neg ea, if_neg eb] at ha hb
          exact hw.inj a b r ha hb
    · intro a r ha
      simp only at ha ⊢
      by_cases ea : a = k
      · simp [ea] at ha
      · simp only [if_neg ea] at ha
        exact hw.bound a r ha
    · intro a r ha
      simp only at ha ⊢
      by_cases ea : a = k
      · simp [ea] at ha
      · simp only [if_neg ea] at ha
        exact hw.listed a r ha

theorem run_WellFormed {P : Palette} :
    ∀ (ls : List Bytes) (st st1 : State), WellFormed st → run P st ls = some st1 →
      WellFormed st1 := by
  intro ls
  induction ls with
  | nil =>
    intro st st1 hw h
    simp only [run, Option.some.injEq] at h
    rw [← h]; exact hw
  | cons x xs ih =>
    intro st st1 hw h
    simp only [run] at h
    cases hp : processLine P st x with
    | none => simp [hp] at h
    | some s1 =>
      simp only [hp] at h
      exact ih s1 st1 (processLine_WellFormed hw hp) h

/-! ## Frame of a content line and append-only buffers -/

theorem run_one {P : Palette} {s s1 : State} {a : Bytes}
    (ha : processLine P s a = some s1) : run P s [a] = some s1 := by
  simp only [run, ha]

/-- One step allocates no stream anew below the allocation mark and only
extends the buffers of the allocated streams. -/
theorem processLine_grows {P : Palette} {st st1 : State} {x : Bytes}
    (h : processLine P st x = some st1) :
    st.next ≤ st1.next ∧
      ∀ q, q < st.next → ∃ ext, (st1.heap q).Buffer = (st.heap q).Buffer ++ ext := by
  rcases processLine_cases h with e | ⟨p, _, _, e⟩ | ⟨m, _, e⟩ | ⟨k, p, _, _, _, e⟩ |
    ⟨k, p, _, _, _, e⟩
  · rw [e]
    exact ⟨Nat.le_refl _, fun q _ => ⟨[], (List.append_nil _).symm⟩⟩
  · obtain ⟨_, _, _, h4, h5, h6⟩ := onContent_frame P st p (stripTimestamp x)
    rw [e]
    refine ⟨by rw [h4], fun q _ => ?_⟩
    by_cases hq : q = p
    · rw [hq]; exact h6
    · rw [h5 q hq]; exact ⟨[], (List.append_nil _).symm⟩
  · rw [e]
    unfold openStream
    split
    · exact ⟨Nat.le_refl _, fun q _ => ⟨[], (List.append_nil _).symm⟩⟩
    · refine ⟨Nat.le_succ _, fun q hq => ⟨[], ?_⟩⟩
      simp only [if_neg (Nat.ne_of_lt hq), List.append_nil]
  · rw [e]
    refine ⟨Nat.le_refl _, fun q _ => ?_⟩
    by_cases hq : q = p
    · rw [hq]
      exact ⟨_, write_Buffer _ p _⟩
    · refine ⟨[], ?_⟩
      simp [State.write, State.setStream, hq]
  · rw [e]
    exact ⟨Nat.le_refl _, fun q _ => ⟨[], (List.append_nil _).symm⟩⟩

theorem run_grows {P : Palette} :
    ∀ (ls : List Bytes) (st st1 : State), run P st ls = some st1 →
      st.next ≤ st1.next ∧
        ∀ q, q < st.next → ∃ ext, (st1.heap q).Buffer = (st.heap q).Buffer ++ ext := by
  intro ls
  induction ls with
  | nil =>
    intro st st1 h
    simp only [run, Option.some.injEq] at h
    rw [← h]
    exact ⟨Nat.le_refl _, fun q _ => ⟨[], (List.append_nil _).symm⟩⟩
  | cons x xs ih =>
    intro st st1 h
    simp only [run] at h
    cases hp : processLine P st x with
    | none => simp [hp] at h
    | some s1 =>
      simp only [hp] at h
      obtain ⟨hn1, hb1⟩ := processLine_grows hp
      obtain ⟨hn2, hb2⟩ := ih s1 st1 h
      refine ⟨Nat.le_trans hn1 hn2, fun q hq => ?_⟩
      obtain ⟨e1, he1⟩ := hb1 q hq
      obtain ⟨e2, he2⟩ := hb2 q (Nat.lt_of_lt_of_le hq hn1)
      exact ⟨e1 ++ e2, by rw [he2, he1, List.append_assoc]⟩

/-- C17: a plain content line changes at most the stream that is current: the
map, the order list and the current stream stay, every other stream stays,
and every buffer is only extended at its end. Over the lines of any input, a
stream that is in the map at an earlier and at a later point has its earlier
buffer as a beginning of its later buffer. -/
theorem C17_content_frame_append_only (P : Palette) :
    (∀ (st : State) (raw : Bytes), isPlain (stripTimestamp raw) = true →
      ∃ st1, processLine P st raw = some st1 ∧ st1.scanContents = st.scanContents ∧
        st1.contentArr = st.contentArr ∧ st1.curStream = st.curStream ∧
        (∀ q, st.curStream ≠ some q → st1.heap q = st.heap q) ∧
        (∀ q, ∃ ext, (st1.heap q).Buffer = (st.heap q).Buffer ++ ext)) ∧
      (∀ (pre post : List Bytes) (s s1 : State) (n : Bytes) (q : Nat),
        run P State.init pre = some s → run P s post = some s1 →
        s.scanContents n = some q → s1.scanContents n = some q →
        ∃ ext, (s1.heap q).Buffer = (s.heap q).Buffer ++ ext) := by
  refine ⟨fun st raw hp => ?_, fun pre post s s1 n q hpre hpost hk _ => ?_⟩
  · cases hc : st.curStream with
    | none =>
      exact ⟨st, processLine_plain_cur_none hp hc, rfl, rfl, hc, fun _ _ => rfl,
        fun q => ⟨[], (List.append_nil _).symm⟩⟩
    | some p =>
      obtain ⟨h1, h2, h3, _, h5, h6⟩ := onContent_frame P st p (stripTimestamp raw)
      refine ⟨onContent P st p (stripTimestamp raw), ?_, h1, h2, ?_, ?_, ?_⟩
      · simp only [processLine, hp, if_true, hc]
      · rw [h3]; exact hc
      · intro q hq
        exact h5 q (fun e => hq (by rw [e]))
      · intro q
        by_cases hq : q = p
        · rw [hq]; exact h6
        · rw [h5 q hq]; exact ⟨[], (List.append_nil _).symm⟩
  · have hw := run_WellFormed pre State.init s WellFormed_init hpre
    exact (run_grows post s s1 hpost).2 q (hw.bound n q hk)

/-- Witness for C17: the line `hello` after the stage marker of `t`, and the
line `b` after the lines `=== NAME  t`, `a`. -/
theorem C17_content_frame_append_only_witness :
    (∃ st1, processLine ansi (openStream State.init (ascii "t")) (ascii "hello") = some st1 ∧
        st1.scanContents = (openStream State.init (ascii "t")).scanContents ∧
        st1.contentArr = (openStream State.init (ascii "t")).contentArr ∧
        st1.curStream = (openStream State.init (ascii "t")).curStream ∧
        (∀ q, (openStream State.init (ascii "t")).curStream ≠ some q →
          st1.heap q = (openStream State.init (ascii "t")).heap q) ∧
        (∀ q, ∃ ext, (st1.heap q).Buffer
          = ((openStream State.init (ascii "t")).heap q).Buffer ++ ext)) ∧
      ∃ ext, ((((openStream State.init (ascii "t")).write 0 (ascii "a" ++ [10])).write 0
          (ascii "b" ++ [10])).heap 0).Buffer
        = (((openStream State.init (ascii "t")).write 0 (ascii "a" ++ [10])).heap 0).Buffer ++ ext :=
  ⟨(C17_content_frame_append_only ansi).1 (openStream State.init (ascii "t")) (ascii "hello")
      (by decide),
   (C17_content_frame_append_only ansi).2 [PrefixName ++ ascii "t", ascii "a"] [ascii "b"]
      ((openStream State.init (ascii "t")).write 0 (ascii "a" ++ [10]))
      (((openStream State.init (ascii "t")).write 0 (ascii "a" ++ [10])).write 0
        (ascii "b" ++ [10]))
      (ascii "t") 0
      (run_two
        (processLine_stage ansi State.init PrefixName (ascii "t") (by decide) (by decide)
          (by decide))
        (processLine_benign ansi _ (ascii "a") 0 (by decide) (by rfl) (by rfl)))
      (run_one (processLine_benign ansi _ (ascii "b") 0 (by decide) (by rfl) (by rfl)))
      (by rfl) (by rfl)⟩

/-! ## No failed test is lost -/

theorem run_cons_some {P : Palette} {st st2 : State} {x : Bytes} {xs : List Bytes}
    (h : run P st (x :: xs) = some st2) :
    ∃ s, processLine P st x = some s ∧ run P s xs = some st2 := by
  simp only [run] at h
  cases hp : processLine P st x with
  | none => simp [hp] at h
  | some s1 =>
    simp only [hp] at h
    exact ⟨s1, rfl, h⟩

theorem run_append_some {P : Palette} {st st2 : State} {a b : List Bytes}
    (h : run P st (a ++ b) = some st2) :
    ∃ s, run P st a = some s ∧ run P s b = some st2 := by
  rw [run_append] at h
  cases ha : run P st a with
  | none => simp [ha] at h
  | some s =>
    simp only [ha, Option.some_bind] at h
    exact ⟨s, rfl, h⟩

/-- Without a short stage line every step succeeds. -/
theorem processLine_total (P : Palette) (st : State) (x : Bytes)
    (h : HasPrefix (stripTimestamp x) PrefixStage = true →
      PrefixName.length ≤ (stripTimestamp x).length) :
    ∃ st1, processLine P st x = some st1 := by
  cases hp : isPlain (stripTimestamp x) with
  | true =>
    cases hc : st.curStream with
    | none => exact ⟨st, processLine_plain_cur_none hp hc⟩
    | some q => exact ⟨onContent P st q (stripTimestamp x), by simp only [processLine, hp, if_true, hc]⟩
  | false =>
    cases hs : HasPrefix (stripTimestamp x) PrefixStage with
    | true =>
      refine ⟨openStream st
        ((Split ((stripTimestamp x).drop PrefixName.length)).headD []), ?_⟩
      simp only [processLine, hp, hs, if_true, if_false, Bool.false_eq_true, onStage,
        not_lt.mpr (h hs)]
    | false => exact ⟨_, processLine_result_line hp hs⟩

/-- Without a short stage line the loop runs to the end of the input. -/
theorem run_total (P : Palette) :
    ∀ (ls : List Bytes) (st : State), noShortStage ls = true → ∃ st1, run P st ls = some st1 := by
  intro ls
  induction ls with
  | nil => intro st _; exact ⟨st, rfl⟩
  | cons x xs ih =>
    intro st h
    simp only [noShortStage, List.all_cons, Bool.and_eq_true, Bool.or_eq_true,
      Bool.not_eq_true', decide_eq_true_eq] at h
    obtain ⟨s1, hs1⟩ := processLine_total P st x (by
      intro hp
      rcases h.1 with e | e
      · rw [hp] at e; exact absurd e (by simp)
      · exact e)
    obtain ⟨st1, hst1⟩ := ih s1 (by simpa [noShortStage] using h.2)
    exact ⟨st1, by simp only [run, hs1, hst1]⟩

/-- A key stays a key as long as no well-formed result without the failure
prefix names it. -/
theorem run_key_present {P : Palette} {n : Bytes} :
    ∀ (ls : List Bytes) (st st1 : State), run P st ls = some st1 →
      (st.scanContents n).isSome = true →
      (∀ x ∈ ls, resultName x = some n → isFailure x = true) →
      (st1.scanContents n).isSome = true := by
  intro ls
  induction ls with
  | nil =>
    intro st st1 h hk _
    simp only [run, Option.some.injEq] at h
    rw [← h]; exact hk
  | cons x xs ih =>
    intro st st1 h hk hall
    obtain ⟨s1, hp, hrest⟩ := run_cons_some h
    have hk1 : (s1.scanContents n).isSome = true := by
      by_cases hs : stageName x = some n
      · exact processLine_stage_key hp hs
      · rw [processLine_other_key hp hs (hall x (List.mem_cons_self _ _))]
        exact hk
    exact ih s1 st1 hrest hk1 (fun y hy => hall y (List.mem_cons_of_mem _ hy))

/-- In a well-formed state every key of the map has its block in the report. -/
theorem mem_report_of_key {st : State} (hw : WellFormed st) {n : Bytes} {q : Nat}
    (hk : st.scanContents n = some q) : (n, (st.heap q).Buffer) ∈ report st := by
  simp only [report, List.mem_filterMap]
  exact ⟨n, hw.listed n q hk, by simp [hk]⟩

/-- A line that neither announces `n` nor is a well-formed result of `n` leaves
the stream of `n` alone, when that stream is not the current one. -/
theorem processLine_untouched {P : Palette} {st st1 : State} {x n : Bytes} {p : Nat}
    (hw : WellFormed st) (hk : st.scanContents n = some p) (hc : st.curStream ≠ some p)
    (hs : stageName x ≠ some n) (hr : resultName x ≠ some n)
    (h : processLine P st x = some st1) :
    st1.scanContents n = some p ∧ st1.curStream ≠ some p ∧ st1.heap p = st.heap p := by
  rcases processLine_cases h with e | ⟨q, _, hq, e⟩ | ⟨m, hm, e⟩ | ⟨k, q, hrk, hkq, _, e⟩ |
    ⟨k, q, hrk, hkq, _, e⟩
  · rw [e]; exact ⟨hk, hc, rfl⟩
  · obtain ⟨h1, _, h3, _, h5, _⟩ := onContent_frame P st q (stripTimestamp x)
    have hpq : p ≠ q := fun e1 => hc (by rw [hq, e1])
    rw [e]
    exact ⟨by rw [h1]; exact hk, by rw [h3]; exact hc, h5 p hpq⟩
  · have hmn : n ≠ m := fun e1 => hs (by rw [hm, e1])
    rw [e]
    unfold openStream
    split
    · rename_i q hq
      refine ⟨hk, ?_, rfl⟩
      intro e1
      simp only [Option.some.injEq] at e1
      exact hmn (hw.inj n m p hk (by rw [hq, e1]))
    · have hlt := hw.bound n p hk
      refine ⟨?_, ?_, ?_⟩
      · simp only [if_neg hmn]; exact hk
      · intro e1
        simp only [Option.some.injEq] at e1
        omega
      · simp only [if_neg (Nat.ne_of_lt hlt)]
  · have hkn : k ≠ n := fun e1 => hr (by rw [hrk, e1])
    have hpq : p ≠ q := fun e1 => hkn (hw.inj k n q hkq (by rw [hk, e1]))
    rw [e]
    refine ⟨hk, by simp [State.write, State.setStream], ?_⟩
    simp [State.write, State.setStream, hpq]
  · have hkn : n ≠ k := fun e1 => hr (by rw [hrk, e1])
    rw [e]
    exact ⟨by simp only [if_neg hkn]; exact hk, by simp, rfl⟩

theorem run_untouched {P : Palette} {n : Bytes} {p : Nat} :
    ∀ (ls : List Bytes) (st st1 : State), WellFormed st → st.scanContents n = some p →
      st.curStream ≠ some p → (∀ x ∈ ls, stageName x ≠ some n ∧ resultName x ≠ some n) →
      run P st ls = some st1 →
      st1.scanContents n = some p ∧ st1.heap p = st.heap p := by
  intro ls
  induction ls with
  | nil =>
    intro st st1 _ hk _ _ h
    simp only [run, Option.some.injEq] at h
    rw [← h]; exact ⟨hk, rfl⟩
  | cons x xs ih =>
    intro st st1 hw hk hc hall h
    obtain ⟨s1, hp, hrest⟩ := run_cons_some h
    have hx := hall x (List.mem_cons_self _ _)
    obtain ⟨hk1, hc1, hh1⟩ := processLine_untouched hw hk hc hx.1 hx.2 hp
    obtain ⟨hk2, hh2⟩ := ih s1 st1 (processLine_WellFormed hw hp) hk1 hc1
      (fun y hy => hall y (List.mem_cons_of_mem _ hy)) hrest
    exact ⟨hk2, by rw [hh2, hh1]⟩

/-- C20, counterexample: after the failure result of `n` a second stage marker
of `n` makes its stream current again and the line `more` is appended behind
the result line; the last result marker naming `n` is `--- FAIL: n`, yet the
body of the block does not end with that line and a newline. -/
theorem C20_body_continues_after_result :
    parseGoLogs ansi [ascii "=== NAME  n", ascii "--- FAIL: n", ascii "=== NAME  n",
        ascii "more"]
        = some [(ascii "n", ascii "--- FAIL: n\nmore\n")] ∧
      HasSuffix (ascii "--- FAIL: n\nmore\n") (ascii "--- FAIL: n\n") = false := by
  decide

/-- C20, amended: in every state the loop reaches, every key of `scanContents`
is in the order list. For every input without a stage line too short for the
slice of line 212, the loop runs to its end, and a test `n` announced by a
stage marker after which no well-formed result marker naming `n` lacks the
failure prefix has a block in the report. When moreover a well-formed failure
result of `n` follows that stage marker and neither a stage marker nor a
result marker naming `n` follows that result, the body of the block ends with
the trimmed result line and a newline, whatever the mute state of the stream
was. -/
theorem C20_failed_test_reported (P : Palette) :
    (∀ (lines : List Bytes) (st : State) (n : Bytes), run P State.init lines = some st →
        (st.scanContents n).isSome = true → n ∈ st.contentArr) ∧
      (∀ (a b : List Bytes) (s n : Bytes), noShortStage (a ++ s :: b) = true →
        stageName s = some n → (∀ x ∈ b, resultName x = some n → isFailure x = true) →
        ∃ blocks, parseGoLogs P (a ++ s :: b) = some blocks ∧ n ∈ names blocks) ∧
      (∀ (a mid post : List Bytes) (s l n : Bytes),
        noShortStage (a ++ s :: (mid ++ l :: post)) = true →
        stageName s = some n → (∀ x ∈ mid, resultName x = some n → isFailure x = true) →
        resultName l = some n → isFailure l = true →
        (∀ x ∈ post, stageName x ≠ some n ∧ resultName x ≠ some n) →
        ∃ blocks body front, parseGoLogs P (a ++ s :: (mid ++ l :: post)) = some blocks ∧
          (n, body) ∈ blocks ∧ body = front ++ (trimSub (stripTimestamp l) ++ [10])) := by
  refine ⟨fun lines st n hrun hk => ?_, fun a b s n hns hs hb => ?_,
    fun a mid post s l n hns hs hmid hr hf hpost => ?_⟩
  · have hw := run_WellFormed lines State.init st WellFormed_init hrun
    cases hq : st.scanContents n with
    | none => rw [hq] at hk; exact absurd hk (by simp)
    | some q => exact hw.listed n q hq
  · obtain ⟨st, hrun⟩ := run_total P (a ++ s :: b) State.init hns
    have hw := run_WellFormed _ State.init st WellFormed_init hrun
    obtain ⟨s0, _, h1⟩ := run_append_some hrun
    obtain ⟨s1, hp1, h2⟩ := run_cons_some h1
    have hk := run_key_present b s1 st h2 (processLine_stage_key hp1 hs) hb
    cases hq : st.scanContents n with
    | none => rw [hq] at hk; exact absurd hk (by simp)
    | some q =>
      refine ⟨report st, by simp only [parseGoLogs, hrun, Option.map_some'], ?_⟩
      simp only [names, List.mem_map]
      exact ⟨_, mem_report_of_key hw hq, rfl⟩
  · obtain ⟨st, hrun⟩ := run_total P (a ++ s :: (mid ++ l :: post)) State.init hns
    obtain ⟨s0, h0, h1⟩ := run_append_some hrun
    obtain ⟨s1, hp1, h2⟩ := run_cons_some h1
    obtain ⟨s2, h3, h4⟩ := run_append_some h2
    obtain ⟨s3, hp3, h5⟩ := run_cons_some h4
    have hw0 := run_WellFormed a State.init s0 WellFormed_init h0
    have hw1 := processLine_WellFormed hw0 hp1
    have hw2 := run_WellFormed mid s1 s2 hw1 h3
    have hw3 := processLine_WellFormed hw2 hp3
    have hk2 := run_key_present mid s1 s2 h3 (processLine_stage_key hp1 hs) hmid
    cases hq : s2.scanContents n with
    | none => rw [hq] at hk2; exact absurd hk2 (by simp)
    | some q =>
      have e3 := @processLine_of_resultName P s2 l n q hr hq
      rw [hp3, hf] at e3
      simp only [if_true, Option.some.injEq] at e3
      have hk3 : s3.scanContents n = some q := by rw [e3]; exact hq
      have hc3 : s3.curStream ≠ some q := by rw [e3]; simp [State.write, State.setStream]
      have hb3 : (s3.heap q).Buffer
          = (s2.heap q).Buffer ++ (trimSub (stripTimestamp l) ++ [10]) := by
        rw [e3]; exact write_Buffer _ q _
      obtain ⟨hk4, hh4⟩ := run_untouched post s3 st hw3 hk3 hc3 hpost h5
      have hw4 := run_WellFormed post s3 st hw3 h5
      refine ⟨report st, (st.heap q).Buffer, (s2.heap q).Buffer,
        by simp only [parseGoLogs, hrun, Option.map_some'], mem_report_of_key hw4 hk4, ?_⟩
      rw [hh4, hb3]

/-- Witness for C20: the stage marker of `t` alone; then `t` with the line
`boom` and no result; then `t` failing, followed by lines of another test. -/
theorem C20_failed_test_reported_witness :
    ascii "t" ∈ (openStream State.init (ascii "t")).contentArr ∧
      (∃ blocks, parseGoLogs ansi ([] ++ (PrefixName ++ ascii "t") :: [ascii "boom"]) = some blocks ∧
        ascii "t" ∈ names blocks) ∧
      ∃ blocks body front,
        parseGoLogs ansi ([] ++ (PrefixName ++ ascii "t") ::
          ([ascii "boom"] ++ ascii "--- FAIL: t" :: [ascii "=== RUN   u", ascii "other"]))
          = some blocks ∧
        (ascii "t", body) ∈ blocks ∧
        body = front ++ (trimSub (stripTimestamp (ascii "--- FAIL: t")) ++ [10]) :=
  ⟨(C20_failed_test_reported ansi).1 [PrefixName ++ ascii "t"] (openStream State.init (ascii "t"))
      (ascii "t")
      (run_one (processLine_stage ansi State.init PrefixName (ascii "t") (by decide) (by decide)
        (by decide)))
      (by rfl),
   (C20_failed_test_reported ansi).2.1 [] [ascii "boom"] (PrefixName ++ ascii "t") (ascii "t")
      (by decide) (by decide) (by decide),
   (C20_failed_test_reported ansi).2.2 [] [ascii "boom"] [ascii "=== RUN   u", ascii "other"]
      (PrefixName ++ ascii "t") (ascii "--- FAIL: t") (ascii "t")
      (by decide) (by decide) (by decide) (by decide) (by decide) (by decide)⟩

end Ghcierr
